import Mathlib

/-!
Verification development for the pyipm interior-point solver (src/pyipm.py).

The solver is embedded shallowly over exact rationals.  Every floating-point
scalar of the source is modelled as a rational; floating-point constants whose
exact value is irrational in real arithmetic (the golden ratio used by the
fraction-to-boundary search, the float value of sqrt(eps) and of mu ** beta,
the float logarithm used inside the merit function) are passed in as rational
parameters, since the machine values are themselves rationals.  The external
collaborators that the specification declares out of scope (the symbolic
differentiation front end supplying f, grad f, c_E, c_I and their Jacobians,
and the dense linear-algebra kernel supplying symmetric solve, eigenvalues and
least squares) are modelled as opaque function parameters: an Oracle record
for the problem derivatives, a LinOracle record for the linear algebra, and an
explicit eigenvalue function for the Hessian regularizer.  Unbounded while
loops of the source are given explicit fuel; where a theorem needs to know
that a loop exited through its real exit condition the loop reports a Bool
flag (or returns an Option) distinguishing a genuine exit from fuel
exhaustion.
-/

namespace PyIPM

abbrev Vec := List ℚ

abbrev Mat := List (List ℚ)

/-- Dot product of two dense vectors (np.dot on 1-d arrays). -/
def dot (v w : Vec) : ℚ := (List.zipWith (· * ·) v w).sum

/-- Multiplication of a vector by a scalar. -/
def scale (c : ℚ) (v : Vec) : Vec := v.map (fun a => c * a)

/-- Elementwise sum of two vectors. -/
def addv (v w : Vec) : Vec := List.zipWith (· + ·) v w

/-- Elementwise difference of two vectors. -/
def subv (v w : Vec) : Vec := List.zipWith (· - ·) v w

/-- Elementwise negation of a vector. -/
def negv (v : Vec) : Vec := v.map (fun a => -a)

/-- Sum of absolute values, np.sum(np.abs(v)). -/
def l1norm (v : Vec) : ℚ := (v.map (fun a => |a|)).sum

/-- Squared Euclidean norm; np.linalg.norm(v) <= t is modelled as
0 <= t and normSq v <= t^2, which is an exact reformulation. -/
def normSq (v : Vec) : ℚ := dot v v

/-- Matrix times vector, rows represented as lists. -/
def matVec (m : Mat) (v : Vec) : Vec := m.map (fun r => dot r v)

/-- Transpose of a matrix with a declared column count. -/
def transposeM (cols : ℕ) (m : Mat) : Mat :=
  (List.range cols).map (fun j => m.map (fun r => r.getD j 0))

/-- Minimum of a list, np.min (0 as a junk value on the empty list, which the
source never passes). -/
def listMin : List ℚ → ℚ
  | [] => 0
  | a :: t => t.foldl min a

/-- Maximum of a list, np.max. -/
def listMax : List ℚ → ℚ
  | [] => 0
  | a :: t => t.foldl max a

/-- Vector of n zeros, np.zeros. -/
def zerosV (n : ℕ) : Vec := List.replicate n 0

/-- Zero matrix, np.zeros((r, c)). -/
def zerosM (r c : ℕ) : Mat := List.replicate r (zerosV c)

/-- Identity matrix, np.eye. -/
def eyeM (n : ℕ) : Mat :=
  (List.range n).map (fun i => (List.range n).map (fun j => if i = j then (1 : ℚ) else 0))

/-- Negation of a matrix. -/
def negM (m : Mat) : Mat := m.map negv

/-- Map with an explicit running index, used to build block matrices. -/
def mapIdxFrom {α β : Type} (f : ℕ → α → β) : ℕ → List α → List β
  | _, [] => []
  | i, a :: t => f i a :: mapIdxFrom f (i + 1) t

/-- Theano set_subtensor on a contiguous segment: v[i : i + w.length] = w. -/
def setSeg (v : Vec) (i : ℕ) (w : Vec) : Vec :=
  v.take i ++ w ++ v.drop (i + w.length)

/-- Block assignment m[r : r + b.length, c : c + width b] = b on a row-list
matrix. -/
def setBlock (m : Mat) (r c : ℕ) (b : Mat) : Mat :=
  mapIdxFrom (fun i row => if r ≤ i ∧ i < r + b.length then setSeg row c (b.getD (i - r) []) else row) 0 m

/-- Problem oracle: the symbolic-differentiation front end is an external
collaborator, so the objective, the constraints and their derivatives are
opaque rational-valued functions.  D, M, N are self.nvar, self.neq,
self.nineq.  flog is the (rational-valued) floating-point logarithm used in
the merit function; its values never matter for the claims proved here.
dce and dci are stored exactly as in the source: D rows and M (resp. N)
columns, i.e. the transposed constraint Jacobians. -/
structure Oracle where
  D : ℕ
  M : ℕ
  N : ℕ
  f : Vec → ℚ
  df : Vec → Vec
  ce : Vec → Vec
  ci : Vec → Vec
  dce : Vec → Mat
  dci : Vec → Mat
  flog : ℚ → ℚ

/-- External dense linear-algebra kernel.  symSolve may fail (the theano
symmetric solve raising, or the reshape preceding it raising); lstsq is
np.linalg.lstsq returning the minimum-norm solution and is total. -/
structure LinOracle where
  symSolve : Mat → Vec → Option Vec
  lstsq : Mat → Vec → Vec

/-- Gradient vector of size D + 2N + M compiled in validate_and_compile
(the expression named grad, lines 414-457 of src/pyipm.py): a zero vector
filled blockwise by set_subtensor, with the branch structure of the source
on neq/nineq truthiness. -/
def IPM.grad (O : Oracle) (eps mu : ℚ) (x s lda : Vec) : Vec :=
  let g0 := zerosV (O.D + 2 * O.N + O.M)
  let g1 :=
    if O.M ≠ 0 ∧ O.N ≠ 0 then
      setSeg g0 0 (subv (subv (O.df x) (matVec (O.dce x) (lda.take O.M))) (matVec (O.dci x) (lda.drop O.M)))
    else if O.M ≠ 0 then
      setSeg g0 0 (subv (O.df x) (matVec (O.dce x) lda))
    else if O.N ≠ 0 then
      setSeg g0 0 (subv (O.df x) (matVec (O.dci x) lda))
    else
      setSeg g0 0 (O.df x)
  let g2 :=
    if O.N ≠ 0 then
      setSeg (setSeg g1 O.D (subv (lda.drop O.M) (s.map (fun si => mu / (si + eps)))))
        (O.D + O.N + O.M) (subv (O.ci x) s)
    else g1
  if O.M ≠ 0 then setSeg g2 (O.D + O.N) (O.ce x) else g2

/-- One block of the value returned by IPM.KKT: either a residual vector or
the float scalar 0.0 returned for an absent constraint set. -/
inductive Blk where
  | vec (v : Vec)
  | scalar (c : ℚ)
deriving DecidableEq

/-- First-order KKT conditions, IPM.KKT (lines 554-583): slices of the
compiled gradient, with the slack block multiplied elementwise by s and
irrelevant blocks returned as the scalar 0. -/
def IPM.KKT (O : Oracle) (eps mu : ℚ) (x s lda : Vec) : List Blk :=
  let kkts := IPM.grad O eps mu x s lda
  if O.M ≠ 0 ∧ O.N ≠ 0 then
    [Blk.vec (kkts.take O.D),
     Blk.vec (List.zipWith (· * ·) ((kkts.drop O.D).take O.N) s),
     Blk.vec ((kkts.drop (O.D + O.N)).take O.M),
     Blk.vec (kkts.drop (O.D + O.N + O.M))]
  else if O.M ≠ 0 then
    [Blk.vec (kkts.take O.D),
     Blk.scalar 0,
     Blk.vec ((kkts.drop (O.D + O.N)).take O.M),
     Blk.scalar 0]
  else if O.N ≠ 0 then
    [Blk.vec (kkts.take O.D),
     Blk.vec (List.zipWith (· * ·) ((kkts.drop O.D).take O.N) s),
     Blk.scalar 0,
     Blk.vec (kkts.drop (O.D + O.N + O.M))]
  else
    [Blk.vec (kkts.take O.D), Blk.scalar 0, Blk.scalar 0, Blk.scalar 0]

/-- Merit function phi (lines 415, 447-449, 455-456): objective plus barrier
plus l1 penalty, following the source's branch structure.  The log of the
source is the oracle's flog. -/
def IPM.phi (O : Oracle) (_eps mu nu : ℚ) (x s : Vec) : ℚ :=
  let p0 := O.f x
  let p1 :=
    if O.N ≠ 0 then p0 - mu * (s.map O.flog).sum + nu * l1norm (subv (O.ci x) s) else p0
  if O.M ≠ 0 then p1 + nu * l1norm (O.ce x) else p1

/-- Directional derivative dphi of the merit function (lines 417-419, 425,
432, 439, 450). -/
def IPM.dphi (O : Oracle) (eps mu nu : ℚ) (x s dz : Vec) : ℚ :=
  let d0 := dot (O.df x) (dz.take O.D)
  let d1 :=
    if O.M ≠ 0 ∧ O.N ≠ 0 then
      d0 - (nu * l1norm (O.ce x) + nu * l1norm (subv (O.ci x) s))
    else if O.M ≠ 0 then d0 - nu * l1norm (O.ce x)
    else if O.N ≠ 0 then d0 - nu * l1norm (subv (O.ci x) s)
    else d0
  if O.N ≠ 0 then
    d1 - dot (s.map (fun si => mu / (si + eps))) (dz.drop O.D)
  else d1

/-- Gradient of the objective plus barrier (barrier_cost_grad, lines
460-466). -/
def IPM.barrier_cost_grad (O : Oracle) (eps mu : ℚ) (x s : Vec) : Vec :=
  let b0 := setSeg (zerosV (O.D + O.N)) 0 (O.df x)
  if O.N ≠ 0 then setSeg b0 O.D (s.map (fun si => -(mu / (si + eps)))) else b0

/-- Stacked constraint residual con (lines 368-373): [ce ; ci - s]. -/
def IPM.con (O : Oracle) (x s : Vec) : Vec :=
  let c0 := zerosV (O.M + O.N)
  let c1 := if O.M ≠ 0 then setSeg c0 0 (O.ce x) else c0
  if O.N ≠ 0 then setSeg c1 O.M (subv (O.ci x) s) else c1

/-- Full constraint Jacobian jaco (lines 376-382): a (D+N) x (M+N) zero
matrix with dce in the top-left, dci in the top-right and -I_N in the
bottom-right block. -/
def IPM.jaco (O : Oracle) (x : Vec) : Mat :=
  let j0 := zerosM (O.D + O.N) (O.M + O.N)
  let j1 := if O.M ≠ 0 then setBlock j0 0 0 (O.dce x) else j0
  if O.N ≠ 0 then setBlock (setBlock j1 0 O.M (O.dci x)) O.D O.M (negM (eyeM O.N)) else j1

/-- Fraction-to-the-boundary violation test: np.any(p + t*dp < (1-tau)*p). -/
def stepViolB (tau t : ℚ) (p dp : Vec) : Bool :=
  (List.zip p dp).any (fun pr => decide (pr.1 + t * pr.2 < (1 - tau) * pr.1))

/-- Golden-section loop body of IPM.step (lines 902-918).  The while loop of
the source has no a-priori bound, so it is run on fuel; the Bool records
whether the loop exited through its genuine exit condition
|b - a| <= GOLD * Xtol (true) or ran out of fuel (false).  The source
computes c and d before the loop and again at the end of every pass, which
is the same as computing them from the current a, b at the top of every
pass. -/
def IPM.stepNext (tau GOLD : ℚ) (p dp : Vec) (a b : ℚ) : ℚ × ℚ :=
  let c := b - (b - a) / GOLD
  let d := a + (b - a) / GOLD
  let ab1 := if stepViolB tau d p dp then (a, d) else (d, b)
  if c > ab1.1 then (if stepViolB tau c p dp then (ab1.1, c) else (c, ab1.2)) else ab1

/-- Golden-section loop of IPM.step (lines 902-917), one stepNext pass per
iteration while |b - a| > GOLD * Xtol. -/
def IPM.stepGo (tau Xtol GOLD : ℚ) (p dp : Vec) : ℕ → ℚ → ℚ → ℚ × Bool
  | 0, a, _ => (a, false)
  | fuel + 1, a, b =>
    if |b - a| > GOLD * Xtol then
      IPM.stepGo tau Xtol GOLD p dp fuel (IPM.stepNext tau GOLD p dp a b).1
        (IPM.stepNext tau GOLD p dp a b).2
    else (a, true)

/-- Fraction-to-the-boundary step length, IPM.step (lines 888-918): return 1
when the full step already satisfies the bound, otherwise run the
golden-section search from the bracket [0, 1].  GOLD is the float value of
(sqrt(5)+1)/2, a rational parameter. -/
def IPM.step (tau Xtol GOLD : ℚ) (fuel : ℕ) (p dp : Vec) : ℚ × Bool :=
  if stepViolB tau 1 p dp then IPM.stepGo tau Xtol GOLD p dp fuel 0 1 else (1, true)

/-- Backtracking while loop of IPM.search (lines 966-970 and 997-1002): while
the Armijo test fails at the current alpha_smax, multiply both step lengths
by tau.  Fuel-bounded; on fuel exhaustion the current pair is returned, so
every stated property of the result holds for the terminating executions of
the source. -/
def IPM.btLoop (tau : ℚ) (test : ℚ → Bool) : ℕ → ℚ × ℚ → ℚ × ℚ
  | 0, al => al
  | fuel + 1, al => if test al.1 then IPM.btLoop tau test fuel (tau * al.1, tau * al.2) else (al.1, al.2)

/-- Second-order correction direction of the inequality branch of IPM.search
(lines 950-956): A = jaco(x0).T; try the symmetric solve of A dz_p = c_new
and negate; the reshape of c_new (size M+N) to shape (D+N, 1) raises unless
M + N = D + N, and both that error and a failing solve are caught, falling
back to the least-squares minimum-norm solution. -/
def IPM.soc_dir (O : Oracle) (L : LinOracle) (x0 c_new : Vec) : Vec :=
  let A := transposeM (O.M + O.N) (IPM.jaco O x0)
  if O.M + O.N = O.D + O.N then
    match L.symSolve A c_new with
    | some v => negv v
    | none => negv (L.lstsq A c_new)
  else negv (L.lstsq A c_new)

/-- Fallback second-order correction direction of the equality-only branch
of IPM.search (lines 983-989): the reshape of c_new (size M > 0) to shape
(D, 0, 1) on line 986 always raises, so this branch always takes the
least-squares minimum-norm fallback. -/
def IPM.soc_dir_eq (O : Oracle) (L : LinOracle) (x0 c_new : Vec) : Vec :=
  negv (L.lstsq (transposeM (O.M + O.N) (IPM.jaco O x0)) c_new)

/-- Armijo failure test of IPM.search at step length a (lines 944, 968, 976,
1000): phi at the trial point exceeds phi0 + a * eta * dphi0.  With no
inequality constraints the slacks are not stepped. -/
def IPM.armijoTest (O : Oracle) (eps eta1 mu nu : ℚ) (x0 s0 dz : Vec) (a : ℚ) : Bool :=
  decide (IPM.phi O eps mu nu (addv x0 (scale a (dz.take O.D)))
    (if O.N ≠ 0 then addv s0 (scale a ((dz.drop O.D).take O.N)) else s0) >
    IPM.phi O eps mu nu x0 s0 + a * eta1 * IPM.dphi O eps mu nu x0 s0 (dz.take (O.D + O.N)))

/-- Constraint residual at the trial point of IPM.search (lines 947, 980). -/
def IPM.trial_c_new (O : Oracle) (x0 s0 dz : Vec) (a : ℚ) : Vec :=
  IPM.con O (addv x0 (scale a (dz.take O.D)))
    (if O.N ≠ 0 then addv s0 (scale a ((dz.drop O.D).take O.N)) else s0)

/-- First acceptance test of the second-order correction (lines 957 and
990): phi at the corrected trial point is within the Armijo bound. -/
def IPM.socTest1 (O : Oracle) (eps eta1 mu nu : ℚ) (x0 s0 dz dzp : Vec) (a : ℚ) : Bool :=
  if O.N ≠ 0 then
    decide (IPM.phi O eps mu nu (addv (addv x0 (scale a (dz.take O.D))) (dzp.take O.D))
      (addv (addv s0 (scale a ((dz.drop O.D).take O.N))) (dzp.drop O.D)) ≤
      IPM.phi O eps mu nu x0 s0 + a * eta1 * IPM.dphi O eps mu nu x0 s0 (dz.take (O.D + O.N)))
  else
    decide (IPM.phi O eps mu nu (addv (addv x0 (scale a (dz.take O.D))) dzp) s0 ≤
      IPM.phi O eps mu nu x0 s0 + a * eta1 * IPM.dphi O eps mu nu x0 s0 (dz.take (O.D + O.N)))

/-- Fresh fraction-to-boundary step length for the accepted correction (line
958): alpha_corr = step(s0, alpha_smax * ds + dz_p[nvar:]). -/
def IPM.corrStep (O : Oracle) (tau Xtol GOLD : ℚ) (fuel : ℕ) (s0 dz dzp : Vec) (a : ℚ) : ℚ :=
  (IPM.step tau Xtol GOLD fuel s0 (addv (scale a ((dz.drop O.D).take O.N)) (dzp.drop O.D))).1

/-- Second acceptance test of the second-order correction (line 959): phi
at the alpha_corr-scaled corrected point is within the Armijo bound taken
with the corrected direction. -/
def IPM.socTest2 (O : Oracle) (eps eta1 mu nu : ℚ) (x0 s0 dz dzp : Vec) (a ac : ℚ) : Bool :=
  decide (IPM.phi O eps mu nu
    (addv x0 (scale ac (addv (scale a (dz.take O.D)) (dzp.take O.D))))
    (addv s0 (scale ac (addv (scale a ((dz.drop O.D).take O.N)) (dzp.drop O.D)))) ≤
    IPM.phi O eps mu nu x0 s0 + ac * eta1 *
      IPM.dphi O eps mu nu x0 s0 (addv (scale a (dz.take O.D ++ (dz.drop O.D).take O.N)) dzp))

/-- Backtracking phase of IPM.search (lines 966-970 and 997-1002): scale
both step lengths once by tau, then keep scaling while the Armijo test
fails. -/
def IPM.searchBT (O : Oracle) (eps tau eta1 mu nu : ℚ) (fuel : ℕ) (x0 s0 dz : Vec)
    (asx al0 : ℚ) : ℚ × ℚ :=
  IPM.btLoop tau (IPM.armijoTest O eps eta1 mu nu x0 s0 dz) fuel (tau * asx, tau * al0)

/-- Branching phase of IPM.search (lines 942-1002), producing the correction
flag, the correction step length alpha_corr, the correction direction dz_p
and the final pair of step lengths. -/
def IPM.searchRes (O : Oracle) (L : LinOracle) (eps tau eta1 Xtol GOLD : ℚ) (fuel : ℕ)
    (mu nu : ℚ) (x0 s0 dz : Vec) (asx al0 : ℚ) : Bool × ℚ × Vec × ℚ × ℚ :=
  if IPM.armijoTest O eps eta1 mu nu x0 s0 dz asx then
    if O.N ≠ 0 then
      if l1norm (IPM.trial_c_new O x0 s0 dz asx) > l1norm (IPM.con O x0 s0) then
        if IPM.socTest1 O eps eta1 mu nu x0 s0 dz
            (IPM.soc_dir O L x0 (IPM.trial_c_new O x0 s0 dz asx)) asx then
          if IPM.socTest2 O eps eta1 mu nu x0 s0 dz
              (IPM.soc_dir O L x0 (IPM.trial_c_new O x0 s0 dz asx)) asx
              (IPM.corrStep O tau Xtol GOLD fuel s0 dz
                (IPM.soc_dir O L x0 (IPM.trial_c_new O x0 s0 dz asx)) asx) then
            (true,
             IPM.corrStep O tau Xtol GOLD fuel s0 dz
               (IPM.soc_dir O L x0 (IPM.trial_c_new O x0 s0 dz asx)) asx,
             IPM.soc_dir O L x0 (IPM.trial_c_new O x0 s0 dz asx), asx, al0)
          else
            (false, 0, IPM.soc_dir O L x0 (IPM.trial_c_new O x0 s0 dz asx),
             (IPM.searchBT O eps tau eta1 mu nu fuel x0 s0 dz asx al0).1,
             (IPM.searchBT O eps tau eta1 mu nu fuel x0 s0 dz asx al0).2)
        else
          (false, 0, IPM.soc_dir O L x0 (IPM.trial_c_new O x0 s0 dz asx),
           (IPM.searchBT O eps tau eta1 mu nu fuel x0 s0 dz asx al0).1,
           (IPM.searchBT O eps tau eta1 mu nu fuel x0 s0 dz asx al0).2)
      else
        (false, 0, [],
         (IPM.searchBT O eps tau eta1 mu nu fuel x0 s0 dz asx al0).1,
         (IPM.searchBT O eps tau eta1 mu nu fuel x0 s0 dz asx al0).2)
    else
      if O.M ≠ 0 then
        if l1norm (IPM.trial_c_new O x0 s0 dz asx) > l1norm (IPM.con O x0 s0) then
          if IPM.socTest1 O eps eta1 mu nu x0 s0 dz
              (IPM.soc_dir_eq O L x0 (IPM.trial_c_new O x0 s0 dz asx)) asx then
            (true, 1, IPM.soc_dir_eq O L x0 (IPM.trial_c_new O x0 s0 dz asx), asx, al0)
          else
            (false, 0, IPM.soc_dir_eq O L x0 (IPM.trial_c_new O x0 s0 dz asx),
             (IPM.searchBT O eps tau eta1 mu nu fuel x0 s0 dz asx al0).1,
             (IPM.searchBT O eps tau eta1 mu nu fuel x0 s0 dz asx al0).2)
        else
          (false, 0, [],
           (IPM.searchBT O eps tau eta1 mu nu fuel x0 s0 dz asx al0).1,
           (IPM.searchBT O eps tau eta1 mu nu fuel x0 s0 dz asx al0).2)
      else
        (false, 0, [],
         (IPM.searchBT O eps tau eta1 mu nu fuel x0 s0 dz asx al0).1,
         (IPM.searchBT O eps tau eta1 mu nu fuel x0 s0 dz asx al0).2)
  else (false, 0, [], asx, al0)

/-- Backtracking line search IPM.search (lines 920-1012): run the branching
phase, then build the new iterate exactly as lines 971-1010 do - a corrected
point scaled by alpha_corr when the correction was accepted, the plain trial
point otherwise, slacks untouched without inequality constraints, and the
multipliers stepped by the final dual step length when any constraints are
present. -/
def IPM.search (O : Oracle) (L : LinOracle) (P_eps P_tau P_eta P_Xtol P_GOLD : ℚ) (fuel : ℕ)
    (mu nu : ℚ) (x0 s0 lda0 dz : Vec) (alpha_smax alpha_lmax : ℚ) : Vec × Vec × Vec :=
  match IPM.searchRes O L P_eps P_tau P_eta P_Xtol P_GOLD fuel mu nu x0 s0 dz alpha_smax
      (if O.M ≠ 0 ∨ O.N ≠ 0 then alpha_lmax else 0) with
  | (corr, ac, dzp, as1, al1) =>
    (if corr then addv x0 (scale ac (addv (scale as1 (dz.take O.D)) (dzp.take O.D)))
     else addv x0 (scale as1 (dz.take O.D)),
     if O.N ≠ 0 then
       if corr then addv s0 (scale ac (addv (scale as1 ((dz.drop O.D).take O.N)) (dzp.drop O.D)))
       else addv s0 (scale as1 ((dz.drop O.D).take O.N))
     else s0,
     if O.M ≠ 0 ∨ O.N ≠ 0 then addv lda0 (scale al1 (dz.drop (O.D + O.N))) else lda0)

/-- Solver options that stay fixed during a run of solve: the machine epsilon
of the chosen float dtype, the initial barrier and merit parameters, the
line-search and regularization constants, the iteration budgets and the fuel
bound for the embedded while loops. -/
structure Params where
  eps : ℚ
  mu0 : ℚ
  nu0 : ℚ
  rho : ℚ
  tau : ℚ
  eta : ℚ
  Ktol : ℚ
  Xtol : ℚ
  GOLD : ℚ
  miter : ℕ
  niter : ℕ
  fuel : ℕ

/-- State carried across the iterations of solve: the current iterate, the
barrier and merit parameters held in the theano shared variables mu_dev and
nu_dev, and the most recently computed KKT residual list. -/
structure SolveSt where
  x : Vec
  s : Vec
  lda : Vec
  mu : ℚ
  nu : ℚ
  kkt : List Blk

/-- Squared norm of one KKT block; np.linalg.norm of the scalar 0.0 is 0. -/
def blkNormSq : Blk → ℚ
  | Blk.vec v => normSq v
  | Blk.scalar c => c ^ 2

/-- Exact reformulation of np.linalg.norm(v) <= t over the squared norm:
0 <= t and normSq <= t^2. -/
def normLeB (sq t : ℚ) : Bool := decide (0 ≤ t) && decide (sq ≤ t ^ 2)

/-- All four stored KKT blocks have norm at most t (lines 1084 and 1093). -/
def kktLeB (t : ℚ) : List Blk → Bool
  | [k1, k2, k3, k4] =>
    normLeB (blkNormSq k1) t && normLeB (blkNormSq k2) t &&
      normLeB (blkNormSq k3) t && normLeB (blkNormSq k4) t
  | _ => false

/-- Outer convergence test (line 1084): all four norms at most Ktol. -/
def IPM.outerConvB (P : Params) (st : SolveSt) : Bool := kktLeB P.Ktol st.kkt

/-- Inner convergence test (lines 1092-1094): all four norms at most
max(Ktol, mu). -/
def IPM.innerConvB (P : Params) (st : SolveSt) : Bool := kktLeB (max P.Ktol st.mu) st.kkt

/-- Barrier parameter update at the end of a non-final outer iteration
(lines 1160-1165): the adaptive centrality formula, clamped below at 0. -/
def IPM.mu_update (eps : ℚ) (nineq : ℕ) (s ldaI : Vec) : ℚ :=
  let xi := (nineq : ℚ) * listMin (List.zipWith (· * ·) s ldaI) / (dot s ldaI + eps)
  let v := (0.1 : ℚ) * listMin [(0.05 : ℚ) * (1 - xi) / (xi + eps), 2] ^ 3 * dot s ldaI / (nineq : ℚ)
  if v < 0 then 0 else v

/-- One pass of the inner loop body (lines 1109-1146).  The direction
computation (exact-Hessian solve or L-BFGS, both living on the external
linear-algebra kernel) is abstracted as a stateful oracle dir over an
arbitrary oracle-state type sigma; everything after the direction is
concrete: negate the dual block, raise nu if needed, compute the
fraction-to-boundary step bounds, run the line search, recompute the KKT
residuals with the current mu. -/
def IPM.innerBody {σ : Type} (O : Oracle) (L : LinOracle) (P : Params)
    (dir : σ → SolveSt → Vec × σ) (p : σ × SolveSt) : σ × SolveSt :=
  let st := p.2
  let pr := dir p.1 st
  let dz :=
    if O.M ≠ 0 ∨ O.N ≠ 0 then pr.1.take (O.D + O.N) ++ negv (pr.1.drop (O.D + O.N)) else pr.1
  let nu1 :=
    if O.M ≠ 0 ∨ O.N ≠ 0 then
      let thres :=
        dot (IPM.barrier_cost_grad O P.eps st.mu st.x st.s) (dz.take (O.D + O.N)) / (1 - P.rho) /
          l1norm (IPM.con O st.x st.s)
      if st.nu < thres then thres else st.nu
    else st.nu
  let as1 :=
    if O.N ≠ 0 then (IPM.step P.tau P.Xtol P.GOLD P.fuel st.s ((dz.drop O.D).take O.N)).1 else 1
  let al1 :=
    if O.N ≠ 0 then
      (IPM.step P.tau P.Xtol P.GOLD P.fuel (st.lda.drop O.M) (dz.drop (O.D + O.N + O.M))).1
    else 1
  let r := IPM.search O L P.eps P.tau P.eta P.Xtol P.GOLD P.fuel st.mu nu1 st.x st.s st.lda dz as1 al1
  (pr.2,
   { x := r.1, s := r.2.1, lda := r.2.2, mu := st.mu, nu := nu1,
     kkt := IPM.KKT O P.eps st.mu r.1 r.2.1 r.2.2 })

/-- Inner iteration loop (lines 1090-1146): up to miter passes, stopping
early when all four KKT norms are at most max(Ktol, mu). -/
def IPM.innerLoop {σ : Type} (O : Oracle) (L : LinOracle) (P : Params)
    (dir : σ → SolveSt → Vec × σ) : ℕ → σ × SolveSt → σ × SolveSt
  | 0, p => p
  | m + 1, p =>
    if IPM.innerConvB P p.2 then p
    else IPM.innerLoop O L P dir m (IPM.innerBody O L P dir p)

/-- Outer iteration loop (lines 1082-1166): at the top of each iteration
stop with flag true when all four KKT norms are at most Ktol; run the inner
loop; on the final iteration break without updating mu; otherwise update mu
(only when inequality constraints are present) and continue.  The Bool of
the result records whether the loop stopped at the convergence test. -/
def IPM.outerLoop {σ : Type} (O : Oracle) (L : LinOracle) (P : Params)
    (dir : σ → SolveSt → Vec × σ) : ℕ → σ × SolveSt → (σ × SolveSt) × Bool
  | 0, p => (p, false)
  | k + 1, p =>
    if IPM.outerConvB P p.2 then (p, true)
    else
      let p1 := IPM.innerLoop O L P dir P.miter p
      if k = 0 then (p1, false)
      else
        let p2 :=
          if O.N ≠ 0 then
            (p1.1, { p1.2 with mu := IPM.mu_update P.eps O.N p1.2.s (p1.2.lda.drop O.M) })
          else p1
        IPM.outerLoop O L P dir k p2

/-- Initial solve state (lines 1037-1067): with inequality constraints mu
starts from the configured mu0, otherwise mu is set to Ktol; nu starts from
nu0; the initial KKT residuals are computed at the initial point with the
initial mu. -/
def IPM.initState (O : Oracle) (P : Params) (x0 s0 lda0 : Vec) : SolveSt :=
  let mu1 := if O.N ≠ 0 then P.mu0 else P.Ktol
  { x := x0, s := s0, lda := lda0, mu := mu1, nu := P.nu0,
    kkt := IPM.KKT O P.eps mu1 x0 s0 lda0 }

/-- Whole iteration phase of IPM.solve: run the outer loop for niter
iterations from the initial state. -/
def IPM.solveRun {σ : Type} (O : Oracle) (L : LinOracle) (P : Params)
    (dir : σ → SolveSt → Vec × σ) (a0 : σ) (x0 s0 lda0 : Vec) : (σ × SolveSt) × Bool :=
  IPM.outerLoop O L P dir P.niter (a0, IPM.initState O P x0 s0 lda0)

/-- Final state of the iteration phase of IPM.solve. -/
def IPM.solveState {σ : Type} (O : Oracle) (L : LinOracle) (P : Params)
    (dir : σ → SolveSt → Vec × σ) (a0 : σ) (x0 s0 lda0 : Vec) : SolveSt :=
  (IPM.solveRun O L P dir a0 x0 s0 lda0).1.2

/-- IPM.solve (lines 1015-1212): run the iterations and return the 5-tuple
(x, s, lda, fval, kkt) with fval = cost(x) evaluated at the final x (lines
1168-1172, 1212). -/
def IPM.solve {σ : Type} (O : Oracle) (L : LinOracle) (P : Params)
    (dir : σ → SolveSt → Vec × σ) (a0 : σ) (x0 s0 lda0 : Vec) :
    Vec × Vec × Vec × ℚ × List Blk :=
  let st := IPM.solveState O L P dir a0 x0 s0 lda0
  (st.x, st.s, st.lda, O.f st.x, st.kkt)

/-- Add c to the diagonal entries with index in [lo, hi) of a row-list
matrix; this is the effect of adding c * np.eye to a diagonal block. -/
def diagShift (m : Mat) (lo hi : ℕ) (c : ℚ) : Mat :=
  mapIdxFrom
    (fun i row =>
      if lo ≤ i ∧ i < hi then mapIdxFrom (fun j e => if j = i then e + c else e) 0 row else row)
    0 m

/-- While loop of IPM.reghess (lines 880-884): while the count of
eigenvalues below -eps differs from M+N, remove the current primal shift,
multiply delta by 10 and reapply.  eigh is the external symmetric
eigenvalue kernel.  Fuel-bounded: none models an execution that did not
exit within the given fuel. -/
def IPM.reghessGo (eigh : Mat → Vec) (eps : ℚ) (nvar neq nineq : ℕ) :
    ℕ → Mat → ℚ → Option (Mat × ℚ)
  | 0, _, _ => none
  | fuel + 1, Hc, delta =>
    let w := eigh Hc
    if (neq + nineq : ℕ) ≠ w.countP (fun wi => decide (wi < -eps)) then
      let Hc1 := diagShift Hc 0 nvar (-delta)
      let delta1 := delta * 10
      let Hc2 := diagShift Hc1 0 nvar delta1
      IPM.reghessGo eigh eps nvar neq nineq fuel Hc2 delta1
    else some (Hc, delta)

/-- Hessian regularization IPM.reghess (lines 860-886).  muBeta is the float
value of mu_host ** beta and reg_coef the float value of sqrt(eps), both
rational parameters; delta is the mutable regularization offset self.delta,
threaded explicitly. -/
def IPM.reghess (eigh : Mat → Vec) (eps reg_coef eta muBeta delta0 : ℚ) (nvar neq nineq : ℕ)
    (fuel : ℕ) (Hc : Mat) (delta : ℚ) : Option (Mat × ℚ) :=
  let w := eigh Hc
  let rcond := listMin (w.map (fun a => |a|)) / listMax (w.map (fun a => |a|))
  if rcond ≤ eps ∨ (neq + nineq : ℕ) ≠ w.countP (fun wi => decide (wi < -eps)) then
    let Hc1 :=
      if rcond ≤ eps ∧ neq ≠ 0 then
        diagShift Hc (nvar + nineq) (nvar + nineq + neq) (-(reg_coef * eta * muBeta))
      else Hc
    let delta1 := if delta = 0 then delta0 else max (delta / 2) delta0
    let Hc2 := diagShift Hc1 0 nvar delta1
    IPM.reghessGo eigh eps nvar neq nineq fuel Hc2 delta1
  else some (Hc, delta)

/-- Net effect on the first n-1 rows of the in-place assignment
m[:-1, :-1] = m[1:, 1:] on an n by n array: row i becomes the tail of old
row i+1 followed by the untouched last entry of old row i. -/
def sqShiftRows (m : Mat) : Mat :=
  mapIdxFrom (fun i _ => (m.getD (i + 1) []).tail ++ [(m.getD i []).getLastD 0]) 0 m.tail

/-- Replace the last entry of a vector. -/
def setLastEntry (v : Vec) (c : ℚ) : Vec := v.take (v.length - 1) ++ [c]

/-- Assign a column vector to the last column of a row-list matrix. -/
def setLastCol (m : Mat) (u : Vec) : Mat :=
  mapIdxFrom (fun i row => setLastEntry row (u.getD i 0)) 0 m

/-- Net effect of growing a k by k array by one zero row and one zero column
and then assigning u to both the last column and the last row. -/
def growSquare (m : Mat) (u : Vec) : Mat :=
  mapIdxFrom (fun i row => row ++ [u.getD i 0]) 0 m ++ [u]

/-- L-BFGS storage reset, IPM.lbfgs_init (lines 585-599), given that the
lbfgs_zeta attribute is present with value zeta0: scaling zeta0 and empty
storage arrays (S and Y are lists of columns; SS, L, D are row-list square
matrices). -/
def IPM.lbfgs_empty (zeta0 : ℚ) : ℚ × List Vec × List Vec × Mat × Mat × Mat × ℕ :=
  (zeta0, [], [], [], [], [], 0)

/-- L-BFGS storage update, IPM.lbfgs_update (lines 785-858).  constrained is
the truthiness of neq or nineq; sqrtEps is the float value of sqrt(eps);
mMax is self.lbfgs, which is also self.lbfgs_fail_max; zeta0 is the stored
lbfgs_zeta used by the reset.  The in-place numpy surgery on the storage
arrays is rendered by its net effect: on the shift path the oldest column of
S and Y is dropped and the new difference appended, and SS, L, D are shifted
up-left with their last row/column rewritten exactly as the source
assignments do. -/
def IPM.lbfgs_update (constrained : Bool) (eps sqrtEps zeta0 : ℚ) (mMax nvar : ℕ)
    (x_old x_new g_old g_new : Vec) (zeta : ℚ) (S Y : List Vec) (SS Lm Dm : Mat) (fail : ℕ) :
    ℚ × List Vec × List Vec × Mat × Mat × Mat × ℕ :=
  let dx := subv x_new x_old
  let dg := subv (g_old.take nvar) (g_new.take nvar)
  let zeta_new :=
    if constrained then dot dg dx / (dot dx dx + eps) else dot dg dx / (dot dg dg + eps)
  let r :=
    if dot dx dg > sqrtEps ∧ zeta_new > sqrtEps then
      let shift := decide (S.length > mMax)
      let S1 := if shift then S.tail ++ [dx] else S ++ [dx]
      let Y1 := if shift then Y.tail ++ [dg] else Y ++ [dg]
      let u := if constrained then S1.map (fun c => dot c dx) else Y1.map (fun c => dot c dg)
      let SS1 := if shift then setLastCol (sqShiftRows SS) u ++ [u] else growSquare SS u
      let Lupd := if constrained then Y1.map (fun c => dot dx c) else S1.map (fun c => dot c dg)
      let L1 :=
        if constrained then
          if shift then sqShiftRows Lm ++ [setLastEntry Lupd 0]
          else Lm.map (fun row => row ++ [0]) ++ [setLastEntry Lupd 0]
        else
          if shift then setLastCol (sqShiftRows Lm ++ [Lm.getLastD []]) Lupd
          else setLastCol (Lm.map (fun row => row ++ [0]) ++ [zerosV (Lm.length + 1)]) Lupd
      let dval := dot dx dg
      let D1 :=
        if shift then sqShiftRows Dm ++ [setLastEntry (Dm.getLastD []) dval]
        else Dm.map (fun row => row ++ [0]) ++ [setLastEntry (zerosV (Dm.length + 1)) dval]
      (zeta_new, S1, Y1, SS1, L1, D1, 0)
    else (zeta, S, Y, SS, Lm, Dm, fail + 1)
  if r.2.2.2.2.2.2 > mMax ∧ r.2.1.length > 0 then IPM.lbfgs_empty zeta0 else r

/-- Handling of the lbfgs_zeta argument in IPM.__init__ (lines 280-283): the
attribute self.lbfgs_zeta is assigned (to 1.0) only when lbfgs is enabled
and the argument is None; in every other case, including a non-None
argument, the attribute stays unset (modelled as none). -/
def IPM.init_lbfgs_zeta_attr (lbfgs : ℕ) (lbfgs_zeta : Option ℚ) : Option ℚ :=
  if lbfgs ≠ 0 ∧ lbfgs_zeta = none then some 1 else none

/-- IPM.lbfgs_init (lines 585-599) reads self.lbfgs_zeta; when the attribute
is unset that read raises AttributeError, modelled as none. -/
def IPM.lbfgs_init (stored : Option ℚ) : Option (ℚ × List Vec × List Vec × Mat × Mat × Mat × ℕ) :=
  match stored with
  | none => none
  | some z => some (IPM.lbfgs_empty z)

/-! Concrete problem instances used by counterexamples and witnesses.  The
rational constants model a solver built with float_dtype = np.float64, so
eps = 2^-52 and the float value of sqrt(eps) is exactly 2^-26. -/

/-- Always-failing symmetric solver with a trivial least-squares kernel. -/
def linFail : LinOracle where
  symSolve := fun _ _ => none
  lstsq := fun _ _ => []

/-- Default solver options of the source for a float64 build, with an inner
budget of one iteration and an outer budget of two (miter and niter are user
options), and a rational stand-in for the float golden ratio. -/
def cexParams : Params where
  eps := 1 / 2 ^ 52
  mu0 := 1 / 5
  nu0 := 10
  rho := 1 / 10
  tau := 995 / 1000
  eta := 1 / 10 ^ 4
  Ktol := 1 / 10 ^ 4
  Xtol := 1 / 2 ^ 52
  GOLD := 13 / 8
  miter := 1
  niter := 2
  fuel := 5

/-- Inequality-only problem with D = 1, N = 2: linear objective gradient 100,
constraints identically (1, 1) with Jacobian rows (1, 1). -/
def cexOracle : Oracle where
  D := 1
  M := 0
  N := 2
  f := fun _ => 0
  df := fun _ => [100]
  ce := fun _ => []
  ci := fun _ => [1, 1]
  dce := fun _ => [[]]
  dci := fun _ => [[1, 1]]
  flog := fun _ => 0

/-- Direction oracle standing in for the external linear solve, returning the
zero direction. -/
def cexDir : Unit → SolveSt → Vec × Unit := fun _ _ => ([0, 0, 0, 0, 0], ())

/-- Inequality-only problem with D = 1, N = 1 used against IPM.KKT. -/
def kktOracle : Oracle where
  D := 1
  M := 0
  N := 1
  f := fun _ => 0
  df := fun _ => [0]
  ce := fun _ => []
  ci := fun _ => [0]
  dce := fun _ => [[]]
  dci := fun _ => [[0]]
  flog := fun _ => 0

/-- Mixed problem with D = 1, M = 1, N = 1 and constant derivatives, used as
a witness instance for IPM.KKT. -/
def kktOracle2 : Oracle where
  D := 1
  M := 1
  N := 1
  f := fun _ => 0
  df := fun _ => [3]
  ce := fun _ => [4]
  ci := fun _ => [5]
  dce := fun _ => [[2]]
  dci := fun _ => [[7]]
  flog := fun _ => 0

/-- Unconstrained one-variable problem whose gradient already vanishes, so
the solver converges at the initial convergence test. -/
def zeroOracle : Oracle where
  D := 1
  M := 0
  N := 0
  f := fun _ => 7
  df := fun _ => [0]
  ce := fun _ => []
  ci := fun _ => []
  dce := fun _ => [[]]
  dci := fun _ => [[]]
  flog := fun _ => 0

/-- Exact eigenvalue kernel for 1 x 1 matrices: the single eigenvalue of
[[a]] is a. -/
def eig1 : Mat → Vec := fun m => [(m.getD 0 []).getD 0 0]

/-- Eigenvalue-list inertia: the counts of positive, negative and zero
entries. -/
def inertiaOf (w : Vec) : ℕ × ℕ × ℕ :=
  (w.countP (fun a => decide (0 < a)), w.countP (fun a => decide (a < 0)),
   w.countP (fun a => decide (a = 0)))

/-- Interior-point positivity invariant on a solve state: all slacks are
strictly positive, all inequality multipliers (the entries of lda past the
first M) are strictly positive, and lda has at most M + N entries. -/
def PosInv (O : Oracle) (st : SolveSt) : Prop :=
  (∀ q ∈ st.s, 0 < q) ∧ (∀ q ∈ st.lda.drop O.M, 0 < q) ∧ st.lda.length ≤ O.M + O.N

/-! Lemmas about the fraction-to-boundary step length. -/

theorem stepViolB_false_iff (tau t : ℚ) (p dp : Vec) :
    stepViolB tau t p dp = false ↔
      ∀ pr ∈ List.zip p dp, (1 - tau) * pr.1 ≤ pr.1 + t * pr.2 := by
  rw [← Bool.not_eq_true, stepViolB]
  simp [List.any_eq_true, not_lt]

/-- Step length zero never violates the fraction-to-boundary bound on a
positive vector. -/
theorem stepViolB_zero (tau : ℚ) (p dp : Vec) (h0 : 0 < tau)
    (hp : ∀ q ∈ p, 0 < q) : stepViolB tau 0 p dp = false := by
  rw [stepViolB_false_iff]
  intro pr hpr
  have h1 : 0 < pr.1 := hp _ (List.of_mem_zip hpr).1
  nlinarith [mul_pos h0 h1]

/-- The set of admissible step lengths is downward closed on the
nonnegatives. -/
theorem stepViolB_downward (tau : ℚ) (p dp : Vec) (h0 : 0 < tau)
    (hp : ∀ q ∈ p, 0 < q) (t t' : ℚ) (ht' : 0 ≤ t') (htt : t' ≤ t)
    (h : stepViolB tau t p dp = false) : stepViolB tau t' p dp = false := by
  rw [stepViolB_false_iff] at h ⊢
  intro pr hpr
  have h1 : 0 < pr.1 := hp _ (List.of_mem_zip hpr).1
  have h2 := h pr hpr
  rcases le_or_lt 0 pr.2 with hdp | hdp
  · nlinarith [mul_nonneg ht' hdp, mul_pos h0 h1]
  · nlinarith [mul_le_mul_of_nonpos_right htt (le_of_lt hdp)]

/-- Every entry of an elementwise update p + a * dp is a pairwise combination
of entries of p and dp. -/
theorem mem_addv_scale {p dp : Vec} {a q : ℚ} (hq : q ∈ addv p (scale a dp)) :
    ∃ pr ∈ List.zip p dp, q = pr.1 + a * pr.2 := by
  induction p generalizing dp with
  | nil => simp [addv, scale] at hq
  | cons x xs ih =>
    cases dp with
    | nil => simp [addv, scale] at hq
    | cons y ys =>
      rcases (by simpa [addv, scale] using hq : q = x + a * y ∨
          q ∈ addv xs (scale a ys)) with h | h
      · exact ⟨(x, y), by simp, h⟩
      · obtain ⟨pr, hpr, he⟩ := ih h
        exact ⟨pr, by simp [List.zip_cons_cons]; right; simpa using hpr, he⟩

/-- An admissible step length keeps an elementwise-positive vector
elementwise positive. -/
theorem addv_scale_pos (tau a : ℚ) (p dp : Vec) (h0 : 0 < tau) (h1 : tau < 1)
    (hp : ∀ q ∈ p, 0 < q) (h : stepViolB tau a p dp = false) :
    ∀ q ∈ addv p (scale a dp), 0 < q := by
  intro q hq
  obtain ⟨pr, hpr, he⟩ := mem_addv_scale hq
  have hpos : 0 < pr.1 := hp _ (List.of_mem_zip hpr).1
  have hb := (stepViolB_false_iff tau a p dp).1 h pr hpr
  nlinarith

/-- One stepNext pass preserves the golden-section bracket invariant: the
left end stays admissible, the right end stays violating, and the bracket
stays inside [0, 1]. -/
theorem stepNext_inv (tau GOLD : ℚ) (p dp : Vec) (a b : ℚ)
    (hG1 : 1 < GOLD) (hG2 : GOLD < 2)
    (ha0 : 0 ≤ a) (hab : a < b) (hb1 : b ≤ 1)
    (haA : stepViolB tau a p dp = false) (hbV : stepViolB tau b p dp = true) :
    0 ≤ (IPM.stepNext tau GOLD p dp a b).1 ∧
      (IPM.stepNext tau GOLD p dp a b).1 ≤ (IPM.stepNext tau GOLD p dp a b).2 ∧
      (IPM.stepNext tau GOLD p dp a b).2 ≤ 1 ∧
      stepViolB tau (IPM.stepNext tau GOLD p dp a b).1 p dp = false ∧
      stepViolB tau (IPM.stepNext tau GOLD p dp a b).2 p dp = true := by
  have hGpos : (0 : ℚ) < GOLD := lt_trans one_pos hG1
  have hL : 0 < b - a := by linarith
  have hdiv : 0 < (b - a) / GOLD := div_pos hL hGpos
  have hdivlt : (b - a) / GOLD < b - a := div_lt_self hL hG1
  have had : a < a + (b - a) / GOLD := by linarith
  have hdb : a + (b - a) / GOLD < b := by linarith
  have hac : a < b - (b - a) / GOLD := by linarith
  have hcb : b - (b - a) / GOLD < b := by linarith
  have hhalf : (b - a) / 2 ≤ (b - a) / GOLD :=
    (div_le_div_left hL two_pos hGpos).mpr (le_of_lt hG2)
  have hcd : b - (b - a) / GOLD ≤ a + (b - a) / GOLD := by linarith
  simp only [IPM.stepNext]
  by_cases hd : stepViolB tau (a + (b - a) / GOLD) p dp = true
  · rw [if_pos hd, if_pos (show b - (b - a) / GOLD > (a, a + (b - a) / GOLD).1 from hac)]
    by_cases hc : stepViolB tau (b - (b - a) / GOLD) p dp = true
    · rw [if_pos hc]
      exact ⟨ha0, le_of_lt hac, by linarith, haA, hc⟩
    · rw [if_neg hc]
      exact ⟨by linarith, hcd, by linarith, Bool.eq_false_iff.mpr hc, hd⟩
  · rw [if_neg hd,
      if_neg (show ¬(b - (b - a) / GOLD > (a + (b - a) / GOLD, b).1) from not_lt.mpr hcd)]
    exact ⟨by linarith, le_of_lt hdb, hb1, Bool.eq_false_iff.mpr hd, hbV⟩

/-- Main invariant of the golden-section loop: the returned value lies in
[0, 1] and is admissible; and when the loop exits through its genuine exit
condition, every admissible nonnegative step length is within GOLD * Xtol
of the returned value. -/
theorem stepGo_spec (tau Xtol GOLD : ℚ) (p dp : Vec)
    (hG1 : 1 < GOLD) (hG2 : GOLD < 2) (hX : 0 ≤ Xtol) (h0 : 0 < tau)
    (hp : ∀ q ∈ p, 0 < q) :
    ∀ fuel a b, 0 ≤ a → a ≤ b → b ≤ 1 →
      stepViolB tau a p dp = false → stepViolB tau b p dp = true →
      (0 ≤ (IPM.stepGo tau Xtol GOLD p dp fuel a b).1 ∧
        (IPM.stepGo tau Xtol GOLD p dp fuel a b).1 ≤ 1 ∧
        stepViolB tau (IPM.stepGo tau Xtol GOLD p dp fuel a b).1 p dp = false) ∧
      ((IPM.stepGo tau Xtol GOLD p dp fuel a b).2 = true →
        ∀ t, 0 ≤ t → stepViolB tau t p dp = false →
          t ≤ (IPM.stepGo tau Xtol GOLD p dp fuel a b).1 + GOLD * Xtol) := by
  intro fuel
  induction fuel with
  | zero =>
    intro a b ha0 hab hb1 haA _
    refine ⟨⟨ha0, le_trans hab hb1, haA⟩, ?_⟩
    intro hfl
    simp [IPM.stepGo] at hfl
  | succ n ih =>
    intro a b ha0 hab hb1 haA hbV
    by_cases hcond : |b - a| > GOLD * Xtol
    · have hablt : a < b := by
        rcases lt_or_eq_of_le hab with h | h
        · exact h
        · exfalso
          rw [h] at hcond
          simp at hcond
          have hGX : 0 ≤ GOLD * Xtol := mul_nonneg (by linarith) hX
          linarith
      have hnext := stepNext_inv tau GOLD p dp a b hG1 hG2 ha0 hablt hb1 haA hbV
      have heq : IPM.stepGo tau Xtol GOLD p dp (n + 1) a b =
          IPM.stepGo tau Xtol GOLD p dp n (IPM.stepNext tau GOLD p dp a b).1
            (IPM.stepNext tau GOLD p dp a b).2 := by
        rw [IPM.stepGo, if_pos hcond]
      rw [heq]
      exact ih (IPM.stepNext tau GOLD p dp a b).1 (IPM.stepNext tau GOLD p dp a b).2
        hnext.1 hnext.2.1 hnext.2.2.1 hnext.2.2.2.1 hnext.2.2.2.2
    · have heq : IPM.stepGo tau Xtol GOLD p dp (n + 1) a b = (a, true) := by
        rw [IPM.stepGo, if_neg hcond]
      rw [heq]
      refine ⟨⟨ha0, le_trans hab hb1, haA⟩, ?_⟩
      intro _ t ht0 htA
      have hba : b - a ≤ GOLD * Xtol := by
        have := abs_nonneg (b - a)
        have h2 : |b - a| ≤ GOLD * Xtol := not_lt.mp hcond
        calc b - a ≤ |b - a| := le_abs_self _
          _ ≤ GOLD * Xtol := h2
      have htb : t < b := by
        by_contra hge
        push_neg at hge
        have hb0 : 0 ≤ b := le_trans ha0 hab
        have := stepViolB_downward tau p dp h0 hp t b hb0 hge htA
        rw [this] at hbV
        exact Bool.false_ne_true hbV
      linarith

/-- The fraction-to-boundary step length IPM.step returns a value in [0, 1]
that satisfies the elementwise bound p + alpha * dp >= (1 - tau) * p. -/
theorem step_basic (tau Xtol GOLD : ℚ) (fuel : ℕ) (p dp : Vec)
    (hG1 : 1 < GOLD) (hG2 : GOLD < 2) (hX : 0 ≤ Xtol) (h0 : 0 < tau) :
    (∀ q ∈ p, 0 < q) →
    0 ≤ (IPM.step tau Xtol GOLD fuel p dp).1 ∧
      (IPM.step tau Xtol GOLD fuel p dp).1 ≤ 1 ∧
      stepViolB tau (IPM.step tau Xtol GOLD fuel p dp).1 p dp = false := by
  intro hp
  unfold IPM.step
  by_cases hv : stepViolB tau 1 p dp = true
  · rw [if_pos hv]
    exact (stepGo_spec tau Xtol GOLD p dp hG1 hG2 hX h0 hp fuel 0 1 le_rfl zero_le_one le_rfl
      (stepViolB_zero tau p dp h0 hp) hv).1
  · rw [if_neg hv]
    exact ⟨zero_le_one, le_rfl, Bool.eq_false_iff.mpr hv⟩

/-- The backtracking loop preserves any property closed under scaling both
step lengths by tau. -/
theorem btLoop_pres (tau : ℚ) (test : ℚ → Bool) (Q : ℚ × ℚ → Prop)
    (hstep : ∀ q, Q q → Q (tau * q.1, tau * q.2)) :
    ∀ fuel q, Q q → Q (IPM.btLoop tau test fuel q) := by
  intro fuel
  induction fuel with
  | zero => intro q hq; exact hq
  | succ n ih =>
    intro q hq
    rw [IPM.btLoop]
    by_cases ht : test q.1 = true
    · rw [if_pos ht]
      exact ih _ (hstep q hq)
    · rw [if_neg ht]
      exact hq

/-- Dropping distributes over the elementwise combination of two lists. -/
theorem drop_zipWith' (f : ℚ → ℚ → ℚ) :
    ∀ (n : ℕ) (l l' : Vec), (List.zipWith f l l').drop n = List.zipWith f (l.drop n) (l'.drop n) := by
  intro n
  induction n with
  | zero => intro l l'; rfl
  | succ m ih =>
    intro l l'
    cases l with
    | nil => simp
    | cons x xs =>
      cases l' with
      | nil => simp
      | cons y ys => simpa using ih xs ys

/-- Dropping commutes with scaling. -/
theorem drop_scale (c : ℚ) : ∀ (n : ℕ) (v : Vec), (scale c v).drop n = scale c (v.drop n) := by
  intro n
  induction n with
  | zero => intro v; rfl
  | succ m ih =>
    intro v
    cases v with
    | nil => simp [scale]
    | cons x xs => simpa [scale] using ih xs

/-- Dropping the first M entries of an elementwise update is the update of
the dropped vectors. -/
theorem drop_addv (n : ℕ) (v w : Vec) : (addv v w).drop n = addv (v.drop n) (w.drop n) :=
  drop_zipWith' _ n v w

/-- An elementwise update only shortens a vector. -/
theorem addv_length_le (v w : Vec) : (addv v w).length ≤ v.length := by
  simp [addv]

/-- Admissible dual step lengths keep the inequality multipliers positive:
the dropped tail of the updated multiplier vector is elementwise positive. -/
theorem pos_drop_addv (M : ℕ) (tau al : ℚ) (lda dl : Vec)
    (h0 : 0 < tau) (h1 : tau < 1)
    (hl : ∀ q ∈ lda.drop M, 0 < q)
    (hadm : stepViolB tau al (lda.drop M) (dl.drop M) = false) :
    ∀ q ∈ (addv lda (scale al dl)).drop M, 0 < q := by
  have he : (addv lda (scale al dl)).drop M = addv (lda.drop M) (scale al (dl.drop M)) := by
    rw [drop_addv, drop_scale]
  rw [he]
  exact addv_scale_pos tau al (lda.drop M) (dl.drop M) h0 h1 hl hadm

/-- The backtracking loop started from once-scaled admissible step lengths
returns a pair of nonnegative admissible step lengths. -/
theorem bt_pair_spec (tau : ℚ) (test : ℚ → Bool) (fuel : ℕ) (s0 ds ldaM dlM : Vec) (a l : ℚ)
    (h0 : 0 < tau) (h1 : tau < 1)
    (hps : ∀ q ∈ s0, 0 < q) (hpl : ∀ q ∈ ldaM, 0 < q)
    (ha0 : 0 ≤ a) (haA : stepViolB tau a s0 ds = false)
    (hl0 : 0 ≤ l) (hlA : stepViolB tau l ldaM dlM = false) :
    (0 ≤ (IPM.btLoop tau test fuel (tau * a, tau * l)).1 ∧
      stepViolB tau (IPM.btLoop tau test fuel (tau * a, tau * l)).1 s0 ds = false) ∧
    (0 ≤ (IPM.btLoop tau test fuel (tau * a, tau * l)).2 ∧
      stepViolB tau (IPM.btLoop tau test fuel (tau * a, tau * l)).2 ldaM dlM = false) := by
  have hQ : ∀ q : ℚ × ℚ,
      ((0 ≤ q.1 ∧ stepViolB tau q.1 s0 ds = false) ∧
        (0 ≤ q.2 ∧ stepViolB tau q.2 ldaM dlM = false)) →
      ((0 ≤ (tau * q.1, tau * q.2).1 ∧ stepViolB tau (tau * q.1, tau * q.2).1 s0 ds = false) ∧
        (0 ≤ (tau * q.1, tau * q.2).2 ∧ stepViolB tau (tau * q.1, tau * q.2).2 ldaM dlM = false)) := by
    intro q hq
    obtain ⟨⟨hq1, hq2⟩, hq3, hq4⟩ := hq
    have hs1 : 0 ≤ tau * q.1 := mul_nonneg (le_of_lt h0) hq1
    have hs2 : 0 ≤ tau * q.2 := mul_nonneg (le_of_lt h0) hq3
    refine ⟨⟨hs1, ?_⟩, hs2, ?_⟩
    · exact stepViolB_downward tau s0 ds h0 hps q.1 (tau * q.1) hs1
        (mul_le_of_le_one_left hq1 (le_of_lt h1)) hq2
    · exact stepViolB_downward tau ldaM dlM h0 hpl q.2 (tau * q.2) hs2
        (mul_le_of_le_one_left hq3 (le_of_lt h1)) hq4
  exact btLoop_pres tau test
    (fun q => (0 ≤ q.1 ∧ stepViolB tau q.1 s0 ds = false) ∧
      (0 ≤ q.2 ∧ stepViolB tau q.2 ldaM dlM = false))
    hQ fuel (tau * a, tau * l) (hQ (a, l) ⟨⟨ha0, haA⟩, hl0, hlA⟩)

/-- Case analysis of the branching phase of IPM.search with inequality
constraints present: when the correction is accepted the step lengths are
the incoming ones and alpha_corr is the fresh fraction-to-boundary length
for the stored correction direction; otherwise the final step lengths are
either the incoming pair (Armijo passed at once) or the output of the
backtracking loop. -/
theorem searchRes_char (O : Oracle) (L : LinOracle) (eps tau eta1 Xtol GOLD : ℚ) (fuel : ℕ)
    (mu nu : ℚ) (x0 s0 dz : Vec) (asx al0 : ℚ) (hN : O.N ≠ 0) :
    ((IPM.searchRes O L eps tau eta1 Xtol GOLD fuel mu nu x0 s0 dz asx al0).1 = true →
      (IPM.searchRes O L eps tau eta1 Xtol GOLD fuel mu nu x0 s0 dz asx al0).2.2.2.1 = asx ∧
      (IPM.searchRes O L eps tau eta1 Xtol GOLD fuel mu nu x0 s0 dz asx al0).2.2.2.2 = al0 ∧
      (IPM.searchRes O L eps tau eta1 Xtol GOLD fuel mu nu x0 s0 dz asx al0).2.1 =
        IPM.corrStep O tau Xtol GOLD fuel s0 dz
          ((IPM.searchRes O L eps tau eta1 Xtol GOLD fuel mu nu x0 s0 dz asx al0).2.2.1) asx) ∧
    ((IPM.searchRes O L eps tau eta1 Xtol GOLD fuel mu nu x0 s0 dz asx al0).1 = false →
      ((IPM.searchRes O L eps tau eta1 Xtol GOLD fuel mu nu x0 s0 dz asx al0).2.2.2.1 = asx ∧
        (IPM.searchRes O L eps tau eta1 Xtol GOLD fuel mu nu x0 s0 dz asx al0).2.2.2.2 = al0) ∨
      ((IPM.searchRes O L eps tau eta1 Xtol GOLD fuel mu nu x0 s0 dz asx al0).2.2.2.1 =
          (IPM.searchBT O eps tau eta1 mu nu fuel x0 s0 dz asx al0).1 ∧
        (IPM.searchRes O L eps tau eta1 Xtol GOLD fuel mu nu x0 s0 dz asx al0).2.2.2.2 =
          (IPM.searchBT O eps tau eta1 mu nu fuel x0 s0 dz asx al0).2)) := by
  unfold IPM.searchRes
  split_ifs with h1 h2 h3 h4 h5 <;> simp_all

/-- Positivity preservation through the line search: when the slack and
inequality-multiplier step lengths respect the fraction-to-boundary bound,
every branch of IPM.search (immediate acceptance, backtracking, and the
second-order correction, whose own step length comes from IPM.step) keeps
the slacks and the inequality multipliers elementwise positive, and does
not lengthen the multiplier vector. -/
theorem search_pos (O : Oracle) (L : LinOracle) (eps tau eta1 Xtol GOLD : ℚ) (fuel : ℕ)
    (mu nu : ℚ) (x0 s0 lda0 dz : Vec) (asx alx : ℚ)
    (hG1 : 1 < GOLD) (hG2 : GOLD < 2) (hX : 0 ≤ Xtol) (h0 : 0 < tau) (h1 : tau < 1)
    (hs : ∀ q ∈ s0, 0 < q) (hl : ∀ q ∈ lda0.drop O.M, 0 < q)
    (hlen : lda0.length ≤ O.M + O.N)
    (hras : O.N ≠ 0 → 0 ≤ asx ∧ stepViolB tau asx s0 ((dz.drop O.D).take O.N) = false)
    (hral : O.N ≠ 0 → 0 ≤ alx ∧
      stepViolB tau alx (lda0.drop O.M) (dz.drop (O.D + O.N + O.M)) = false) :
    (∀ q ∈ (IPM.search O L eps tau eta1 Xtol GOLD fuel mu nu x0 s0 lda0 dz asx alx).2.1, 0 < q) ∧
    (∀ q ∈ ((IPM.search O L eps tau eta1 Xtol GOLD fuel mu nu x0 s0 lda0 dz asx alx).2.2).drop O.M,
      0 < q) ∧
    ((IPM.search O L eps tau eta1 Xtol GOLD fuel mu nu x0 s0 lda0 dz asx alx).2.2).length ≤
      O.M + O.N := by
  have hdl : ((dz.drop (O.D + O.N)).drop O.M) = dz.drop (O.D + O.N + O.M) := by
    rw [List.drop_drop]
  by_cases hN : O.N = 0
  · -- no inequality constraints: s is untouched and the dropped multiplier
    -- tail of any update is empty by the length bound
    have hlam : ∀ (c : ℚ) (dl : Vec),
        (∀ q ∈ (addv lda0 (scale c dl)).drop O.M, 0 < q) ∧
          (addv lda0 (scale c dl)).length ≤ O.M + O.N := by
      intro c dl
      constructor
      · have hnil : (addv lda0 (scale c dl)).drop O.M = [] := by
          apply List.drop_eq_nil_of_le
          calc (addv lda0 (scale c dl)).length ≤ lda0.length := addv_length_le _ _
            _ ≤ O.M + O.N := hlen
            _ = O.M := by omega
        rw [hnil]
        intro q hq
        simp at hq
      · exact le_trans (addv_length_le _ _) hlen
    rw [IPM.search]
    rcases hr : IPM.searchRes O L eps tau eta1 Xtol GOLD fuel mu nu x0 s0 dz asx
        (if O.M ≠ 0 ∨ O.N ≠ 0 then alx else 0) with ⟨corr, ac, dzp, as1, al1⟩
    simp only [hN, ne_eq, not_true_eq_false, if_false, ite_false]
    by_cases hM : O.M ≠ 0
    · simp only [hM, ne_eq, not_false_eq_true, if_true, ite_true, false_or, or_false]
      exact ⟨hs, (hlam _ _).1, by simpa [hN] using (hlam _ _).2⟩
    · simp only [hM, false_or, if_false, ite_false]
      exact ⟨hs, hl, by simpa [hN] using hlen⟩
  · -- inequality constraints present
    obtain ⟨has0, hasA⟩ := hras hN
    obtain ⟨hal0, halA⟩ := hral hN
    have hMN : O.M ≠ 0 ∨ O.N ≠ 0 := Or.inr hN
    have hspos : ∀ (c : ℚ), stepViolB tau c s0 ((dz.drop O.D).take O.N) = false →
        ∀ q ∈ addv s0 (scale c ((dz.drop O.D).take O.N)), 0 < q := fun c hc =>
      addv_scale_pos tau c s0 _ h0 h1 hs hc
    have hlpos : ∀ (c : ℚ), stepViolB tau c (lda0.drop O.M) (dz.drop (O.D + O.N + O.M)) = false →
        ∀ q ∈ (addv lda0 (scale c (dz.drop (O.D + O.N)))).drop O.M, 0 < q := by
      intro c hc
      apply pos_drop_addv O.M tau c lda0 (dz.drop (O.D + O.N)) h0 h1 hl
      rw [hdl]
      exact hc
    have hllen : ∀ (c : ℚ),
        (addv lda0 (scale c (dz.drop (O.D + O.N)))).length ≤ O.M + O.N :=
      fun c => le_trans (addv_length_le _ _) hlen
    have hbt := bt_pair_spec tau (IPM.armijoTest O eps eta1 mu nu x0 s0 dz) fuel s0
      ((dz.drop O.D).take O.N) (lda0.drop O.M) (dz.drop (O.D + O.N + O.M)) asx alx
      h0 h1 hs hl has0 hasA hal0 halA
    have hchar := searchRes_char O L eps tau eta1 Xtol GOLD fuel mu nu x0 s0 dz asx alx hN
    rw [IPM.search]
    rw [if_pos hMN]
    rcases hr : IPM.searchRes O L eps tau eta1 Xtol GOLD fuel mu nu x0 s0 dz asx alx
      with ⟨corr, ac, dzp, as1, al1⟩
    rw [hr] at hchar
    simp only at hchar
    have hbtS :
        (0 ≤ (IPM.searchBT O eps tau eta1 mu nu fuel x0 s0 dz asx alx).1 ∧
          stepViolB tau (IPM.searchBT O eps tau eta1 mu nu fuel x0 s0 dz asx alx).1 s0
            ((dz.drop O.D).take O.N) = false) ∧
        (0 ≤ (IPM.searchBT O eps tau eta1 mu nu fuel x0 s0 dz asx alx).2 ∧
          stepViolB tau (IPM.searchBT O eps tau eta1 mu nu fuel x0 s0 dz asx alx).2 (lda0.drop O.M)
            (dz.drop (O.D + O.N + O.M)) = false) := hbt
    cases corr with
    | true =>
      obtain ⟨h_as, h_al, h_ac⟩ := hchar.1 rfl
      dsimp only
      rw [h_as, h_al, h_ac]
      have hcs : IPM.corrStep O tau Xtol GOLD fuel s0 dz dzp asx =
          (IPM.step tau Xtol GOLD fuel s0
            (addv (scale asx ((dz.drop O.D).take O.N)) (dzp.drop O.D))).1 := rfl
      rw [hcs]
      split_ifs with e1 e2 e3
      · exact ⟨addv_scale_pos tau _ s0 _ h0 h1 hs
            (step_basic tau Xtol GOLD fuel s0 _ hG1 hG2 hX h0 hs).2.2,
          hlpos alx halA, hllen alx⟩
      all_goals first
        | exact absurd hMN e1
        | exact absurd hMN e2
        | exact absurd hMN e3
        | exact absurd hN (not_not.mp e1)
        | exact absurd hN (not_not.mp e2)
        | simp_all
    | false =>
      rcases hchar.2 rfl with ⟨h_as, h_al⟩ | ⟨h_as, h_al⟩ <;>
        [skip; skip] <;>
        · dsimp only
          rw [h_as, h_al]
          split_ifs with e1 e2 e3
          case _ => simp_all
          all_goals first
            | exact ⟨hspos asx hasA, hlpos alx halA, hllen alx⟩
            | exact ⟨hspos _ hbtS.1.2, hlpos _ hbtS.2.2, hllen _⟩
            | exact absurd hMN e1
            | exact absurd hMN e2
            | exact absurd hMN e3
            | exact absurd hN (not_not.mp e1)
            | exact absurd hN (not_not.mp e2)
            | simp_all

/-- The inner body never changes the barrier parameter. -/
theorem innerBody_mu {σ : Type} (O : Oracle) (L : LinOracle) (P : Params)
    (dir : σ → SolveSt → Vec × σ) (p : σ × SolveSt) :
    (IPM.innerBody O L P dir p).2.mu = p.2.mu := rfl

/-- The inner body never decreases the merit penalty nu: nu is only replaced
by the threshold when the threshold is larger (lines 1125-1129). -/
theorem innerBody_nu_le {σ : Type} (O : Oracle) (L : LinOracle) (P : Params)
    (dir : σ → SolveSt → Vec × σ) (p : σ × SolveSt) :
    p.2.nu ≤ (IPM.innerBody O L P dir p).2.nu := by
  simp only [IPM.innerBody]
  split_ifs with e1 e2
  · exact le_of_lt e2
  · exact le_rfl
  · exact le_rfl

/-- The inner body preserves the positivity invariant. -/
theorem innerBody_pos {σ : Type} (O : Oracle) (L : LinOracle) (P : Params)
    (dir : σ → SolveSt → Vec × σ) (p : σ × SolveSt)
    (hG1 : 1 < P.GOLD) (hG2 : P.GOLD < 2) (hX : 0 ≤ P.Xtol) (h0 : 0 < P.tau) (h1 : P.tau < 1)
    (hP : PosInv O p.2) : PosInv O (IPM.innerBody O L P dir p).2 := by
  obtain ⟨hs, hl, hlen⟩ := hP
  simp only [IPM.innerBody, PosInv]
  refine search_pos O L P.eps P.tau P.eta P.Xtol P.GOLD P.fuel _ _ _ _ _ _ _ _
    hG1 hG2 hX h0 h1 hs hl hlen ?_ ?_
  · intro hN
    rw [if_pos hN]
    exact ⟨(step_basic _ _ _ _ _ _ hG1 hG2 hX h0 hs).1,
      (step_basic _ _ _ _ _ _ hG1 hG2 hX h0 hs).2.2⟩
  · intro hN
    rw [if_pos hN]
    exact ⟨(step_basic _ _ _ _ _ _ hG1 hG2 hX h0 hl).1,
      (step_basic _ _ _ _ _ _ hG1 hG2 hX h0 hl).2.2⟩

/-- The inner loop never changes the barrier parameter. -/
theorem innerLoop_mu {σ : Type} (O : Oracle) (L : LinOracle) (P : Params)
    (dir : σ → SolveSt → Vec × σ) :
    ∀ (m : ℕ) (p : σ × SolveSt), (IPM.innerLoop O L P dir m p).2.mu = p.2.mu := by
  intro m
  induction m with
  | zero => intro p; rfl
  | succ n ih =>
    intro p
    rw [IPM.innerLoop]
    by_cases hc : IPM.innerConvB P p.2 = true
    · rw [if_pos hc]
    · rw [if_neg hc, ih, innerBody_mu]

/-- The inner loop never decreases nu. -/
theorem innerLoop_nu_le {σ : Type} (O : Oracle) (L : LinOracle) (P : Params)
    (dir : σ → SolveSt → Vec × σ) :
    ∀ (m : ℕ) (p : σ × SolveSt), p.2.nu ≤ (IPM.innerLoop O L P dir m p).2.nu := by
  intro m
  induction m with
  | zero => intro p; exact le_rfl
  | succ n ih =>
    intro p
    rw [IPM.innerLoop]
    by_cases hc : IPM.innerConvB P p.2 = true
    · rw [if_pos hc]
    · rw [if_neg hc]
      exact le_trans (innerBody_nu_le O L P dir p) (ih _)

/-- The inner loop preserves the positivity invariant. -/
theorem innerLoop_pos {σ : Type} (O : Oracle) (L : LinOracle) (P : Params)
    (dir : σ → SolveSt → Vec × σ)
    (hG1 : 1 < P.GOLD) (hG2 : P.GOLD < 2) (hX : 0 ≤ P.Xtol) (h0 : 0 < P.tau) (h1 : P.tau < 1) :
    ∀ (m : ℕ) (p : σ × SolveSt), PosInv O p.2 → PosInv O (IPM.innerLoop O L P dir m p).2 := by
  intro m
  induction m with
  | zero => intro p hp; exact hp
  | succ n ih =>
    intro p hp
    rw [IPM.innerLoop]
    by_cases hc : IPM.innerConvB P p.2 = true
    · rw [if_pos hc]; exact hp
    · rw [if_neg hc]
      exact ih _ (innerBody_pos O L P dir p hG1 hG2 hX h0 h1 hp)

/-- With no inequality constraints the outer loop never changes mu: the
barrier update of lines 1160-1166 is guarded by self.nineq. -/
theorem outerLoop_mu_pin {σ : Type} (O : Oracle) (L : LinOracle) (P : Params)
    (dir : σ → SolveSt → Vec × σ) (hN : O.N = 0) :
    ∀ (k : ℕ) (p : σ × SolveSt), (IPM.outerLoop O L P dir k p).1.2.mu = p.2.mu := by
  intro k
  induction k with
  | zero => intro p; rfl
  | succ n ih =>
    intro p
    rw [IPM.outerLoop]
    by_cases hc : IPM.outerConvB P p.2 = true
    · rw [if_pos hc]
    · rw [if_neg hc]
      by_cases hk : n = 0
      · rw [if_pos hk]
        exact innerLoop_mu O L P dir P.miter p
      · rw [if_neg hk, if_neg (by simp [hN])]
        rw [ih]
        exact innerLoop_mu O L P dir P.miter p

/-- The outer loop never decreases nu (the mu update between outer
iterations does not touch nu). -/
theorem outerLoop_nu_le {σ : Type} (O : Oracle) (L : LinOracle) (P : Params)
    (dir : σ → SolveSt → Vec × σ) :
    ∀ (k : ℕ) (p : σ × SolveSt), p.2.nu ≤ (IPM.outerLoop O L P dir k p).1.2.nu := by
  intro k
  induction k with
  | zero => intro p; exact le_rfl
  | succ n ih =>
    intro p
    rw [IPM.outerLoop]
    by_cases hc : IPM.outerConvB P p.2 = true
    · rw [if_pos hc]
    · rw [if_neg hc]
      by_cases hk : n = 0
      · rw [if_pos hk]
        exact innerLoop_nu_le O L P dir P.miter p
      · rw [if_neg hk]
        refine le_trans (innerLoop_nu_le O L P dir P.miter p) ?_
        by_cases hNz : O.N ≠ 0
        · rw [if_pos hNz]
          exact ih _
        · rw [if_neg hNz]
          exact ih _

/-- The outer loop preserves the positivity invariant (the mu update leaves
x, s, lda untouched). -/
theorem outerLoop_pos {σ : Type} (O : Oracle) (L : LinOracle) (P : Params)
    (dir : σ → SolveSt → Vec × σ)
    (hG1 : 1 < P.GOLD) (hG2 : P.GOLD < 2) (hX : 0 ≤ P.Xtol) (h0 : 0 < P.tau) (h1 : P.tau < 1) :
    ∀ (k : ℕ) (p : σ × SolveSt), PosInv O p.2 → PosInv O (IPM.outerLoop O L P dir k p).1.2 := by
  intro k
  induction k with
  | zero => intro p hp; exact hp
  | succ n ih =>
    intro p hp
    rw [IPM.outerLoop]
    by_cases hc : IPM.outerConvB P p.2 = true
    · rw [if_pos hc]; exact hp
    · rw [if_neg hc]
      have hinner := innerLoop_pos O L P dir hG1 hG2 hX h0 h1 P.miter p hp
      by_cases hk : n = 0
      · rw [if_pos hk]
        exact hinner
      · rw [if_neg hk]
        by_cases hNz : O.N ≠ 0
        · rw [if_pos hNz]
          exact ih _ hinner
        · rw [if_neg hNz]
          exact ih _ hinner

/-- When the outer loop reports the flag true, it stopped at the convergence
test, so the final stored KKT residuals all have norm at most Ktol. -/
theorem outerLoop_flag {σ : Type} (O : Oracle) (L : LinOracle) (P : Params)
    (dir : σ → SolveSt → Vec × σ) :
    ∀ (k : ℕ) (p : σ × SolveSt), (IPM.outerLoop O L P dir k p).2 = true →
      IPM.outerConvB P (IPM.outerLoop O L P dir k p).1.2 = true := by
  intro k
  induction k with
  | zero =>
    intro p h
    simp [IPM.outerLoop] at h
  | succ n ih =>
    intro p h
    rw [IPM.outerLoop] at h ⊢
    by_cases hc : IPM.outerConvB P p.2 = true
    · rw [if_pos hc] at h ⊢
      exact hc
    · rw [if_neg hc] at h ⊢
      by_cases hk : n = 0
      · rw [if_pos hk] at h ⊢
        simp at h
      · rw [if_neg hk] at h ⊢
        exact ih _ h

/-- The np.min of a two-element list is the binary minimum. -/
theorem listMin_pair (a b : ℚ) : listMin [a, b] = min a b := rfl

/-! Claim theorems. -/

/-- C1: for every compiled problem (oracle), linear-algebra kernel,
direction oracle and initial point, IPM.solve returns the 5-tuple
(x, s, lda, fval, kkt) of the final iterate with fval = f(x); the outer
iteration stops before the budget (flag true) only when all four stored KKT
block norms are at most Ktol; and exhausting the budget still yields this
normal 5-tuple (the equality holds whether or not the flag is set - there is
no exceptional exit). -/
theorem C1_solve_result {σ : Type} (O : Oracle) (L : LinOracle) (P : Params)
    (dir : σ → SolveSt → Vec × σ) (a0 : σ) (x0 s0 lda0 : Vec) :
    (IPM.solve O L P dir a0 x0 s0 lda0 =
      ((IPM.solveState O L P dir a0 x0 s0 lda0).x,
       (IPM.solveState O L P dir a0 x0 s0 lda0).s,
       (IPM.solveState O L P dir a0 x0 s0 lda0).lda,
       O.f (IPM.solveState O L P dir a0 x0 s0 lda0).x,
       (IPM.solveState O L P dir a0 x0 s0 lda0).kkt)) ∧
    ((IPM.solve O L P dir a0 x0 s0 lda0).2.2.2.1 =
      O.f (IPM.solve O L P dir a0 x0 s0 lda0).1) ∧
    ((IPM.solveRun O L P dir a0 x0 s0 lda0).2 = true →
      kktLeB P.Ktol (IPM.solveState O L P dir a0 x0 s0 lda0).kkt = true) :=
  ⟨rfl, rfl, fun h => outerLoop_flag O L P dir P.niter _ h⟩

/-- C3: for every run of the outer loop whose initial slacks and
inequality multipliers are strictly positive (and lda no longer than M+N),
with the class invariants tau in (0,1), Xtol nonnegative and the golden
ratio constant in (1,2), the slacks and the inequality multipliers of the
final state are still strictly positive: fraction-to-boundary capping,
backtracking and the second-order-correction path all preserve strict
positivity. -/
theorem C3_strict_positivity {σ : Type} (O : Oracle) (L : LinOracle) (P : Params)
    (dir : σ → SolveSt → Vec × σ) (k : ℕ) (p : σ × SolveSt)
    (hG1 : 1 < P.GOLD) (hG2 : P.GOLD < 2) (hX : 0 ≤ P.Xtol) (h0 : 0 < P.tau) (h1 : P.tau < 1)
    (hs : ∀ q ∈ p.2.s, 0 < q) (hl : ∀ q ∈ p.2.lda.drop O.M, 0 < q)
    (hlen : p.2.lda.length ≤ O.M + O.N) :
    (∀ q ∈ (IPM.outerLoop O L P dir k p).1.2.s, 0 < q) ∧
    (∀ q ∈ (IPM.outerLoop O L P dir k p).1.2.lda.drop O.M, 0 < q) :=
  ⟨(outerLoop_pos O L P dir hG1 hG2 hX h0 h1 k p ⟨hs, hl, hlen⟩).1,
   (outerLoop_pos O L P dir hG1 hG2 hX h0 h1 k p ⟨hs, hl, hlen⟩).2.1⟩

set_option maxRecDepth 100000 in
/-- Witness for C3 at a concrete inequality-constrained run. -/
theorem C3_strict_positivity_witness :
    (∀ q ∈ (IPM.outerLoop cexOracle linFail cexParams cexDir cexParams.niter
        ((), IPM.initState cexOracle cexParams [0] [1, 1] [1 / 2 ^ 20, 20])).1.2.s, 0 < q) ∧
    (∀ q ∈ (IPM.outerLoop cexOracle linFail cexParams cexDir cexParams.niter
        ((), IPM.initState cexOracle cexParams [0] [1, 1] [1 / 2 ^ 20, 20])).1.2.lda.drop
        cexOracle.M, 0 < q) :=
  C3_strict_positivity cexOracle linFail cexParams cexDir cexParams.niter
    ((), IPM.initState cexOracle cexParams [0] [1, 1] [1 / 2 ^ 20, 20])
    (by norm_num [cexParams]) (by norm_num [cexParams]) (by norm_num [cexParams])
    (by norm_num [cexParams]) (by norm_num [cexParams])
    (by with_unfolding_all decide) (by with_unfolding_all decide) (by with_unfolding_all decide)

set_option maxRecDepth 100000 in
/-- C5 counterexample: a concrete run (inequality-only problem, direction
oracle returning the zero step, user-supplied strictly positive s0 and
lda0, one inner iteration per outer iteration) in which the barrier
parameter mu starts at its default 1/5 and ends, after the first outer
update, near 8: mu increased from one outer iteration to the next. -/
theorem C5_counterexample :
    (IPM.initState cexOracle cexParams [0] [1, 1] [1 / 2 ^ 20, 20]).mu = 1 / 5 ∧
    1 / 5 <
      (IPM.solveState cexOracle linFail cexParams cexDir () [0] [1, 1] [1 / 2 ^ 20, 20]).mu := by
  constructor
  · with_unfolding_all decide
  · with_unfolding_all decide

/-- C5 amended: the merit penalty nu never decreases at any point of a run
(every nu assignment is a max with the previous value), and the barrier
update is clamped below at 0; but mu itself may increase across outer
iterations (see the counterexample). -/
theorem C5_nu_nondecreasing_mu_clamped :
    (∀ {σ : Type} (O : Oracle) (L : LinOracle) (P : Params) (dir : σ → SolveSt → Vec × σ)
      (k : ℕ) (p : σ × SolveSt), p.2.nu ≤ (IPM.outerLoop O L P dir k p).1.2.nu) ∧
    (∀ (eps : ℚ) (nineq : ℕ) (s ldaI : Vec), 0 ≤ IPM.mu_update eps nineq s ldaI) := by
  constructor
  · intro σ O L P dir k p
    exact outerLoop_nu_le O L P dir k p
  · intro eps nineq s ldaI
    simp only [IPM.mu_update]
    split_ifs with h
    · exact le_rfl
    · exact not_lt.mp h

/-- C6: the barrier update of lines 1160-1165 computes exactly
0.1 * min(0.05*(1-xi)/(xi+eps), 2)^3 * (s.lda/N) with
xi = N*min(s_i*lda_i)/(s.lda+eps), clamped below at 0 (stated here with
min and max, while the definition mirrors the source's np.min list and
negativity test); the outer loop applies exactly this update at the end of
each non-final outer iteration when N is nonzero; and with no inequality
constraints mu is Ktol at the start and is never changed by the loop. -/
theorem C6_mu_update_formula_and_pinning :
    (∀ (eps : ℚ) (nineq : ℕ) (s ldaI : Vec),
      IPM.mu_update eps nineq s ldaI =
        max 0 ((0.1 : ℚ) *
          min ((0.05 : ℚ) *
              (1 - (nineq : ℚ) * listMin (List.zipWith (· * ·) s ldaI) / (dot s ldaI + eps)) /
              ((nineq : ℚ) * listMin (List.zipWith (· * ·) s ldaI) / (dot s ldaI + eps) + eps)) 2
            ^ 3 *
          (dot s ldaI / (nineq : ℚ)))) ∧
    (∀ {σ : Type} (O : Oracle) (L : LinOracle) (P : Params) (dir : σ → SolveSt → Vec × σ)
      (k : ℕ) (p : σ × SolveSt), O.N ≠ 0 → IPM.outerConvB P p.2 = false →
      IPM.outerLoop O L P dir (k + 2) p =
        IPM.outerLoop O L P dir (k + 1)
          ((IPM.innerLoop O L P dir P.miter p).1,
           { (IPM.innerLoop O L P dir P.miter p).2 with
             mu := IPM.mu_update P.eps O.N (IPM.innerLoop O L P dir P.miter p).2.s
               ((IPM.innerLoop O L P dir P.miter p).2.lda.drop O.M) })) ∧
    (∀ {σ : Type} (O : Oracle) (L : LinOracle) (P : Params) (dir : σ → SolveSt → Vec × σ)
      (k : ℕ) (p : σ × SolveSt), O.N = 0 →
      (IPM.outerLoop O L P dir k p).1.2.mu = p.2.mu) ∧
    (∀ (O : Oracle) (P : Params) (x0 s0 lda0 : Vec), O.N = 0 →
      (IPM.initState O P x0 s0 lda0).mu = P.Ktol) := by
  refine ⟨?_, ?_, ?_, ?_⟩
  · intro eps nineq s ldaI
    simp only [IPM.mu_update, listMin_pair]
    rw [← mul_div_assoc]
    split_ifs with h
    · exact (max_eq_left (le_of_lt h)).symm
    · exact (max_eq_right (not_lt.mp h)).symm
  · intro σ O L P dir k p hN hconv
    rw [IPM.outerLoop]
    rw [if_neg (by rw [hconv]; exact Bool.false_ne_true)]
    rw [if_neg (Nat.succ_ne_zero k), if_pos hN]
  · intro σ O L P dir k p hN
    exact outerLoop_mu_pin O L P dir hN k p
  · intro O P x0 s0 lda0 hN
    simp [IPM.initState, hN]

/-- C7: for every strictly positive vector p and every direction dp (with
the class invariants tau in (0,1), Xtol nonnegative and the golden-ratio
constant in (1,2)), IPM.step returns an alpha in [0,1] satisfying
p + alpha*dp >= (1-tau)*p elementwise; it returns exactly 1 (with the
completion flag) when the full step satisfies that bound; and when the full
step violates the bound and the golden-section loop completed within its
fuel, every admissible nonnegative step length is at most alpha +
GOLD*Xtol, so alpha is the largest admissible value up to the golden
section tolerance. -/
theorem C7_step_fraction_to_boundary (tau Xtol GOLD : ℚ) (fuel : ℕ) (p dp : Vec)
    (hG1 : 1 < GOLD) (hG2 : GOLD < 2) (hX : 0 ≤ Xtol) (h0 : 0 < tau) (h1 : tau < 1)
    (hp : ∀ q ∈ p, 0 < q) :
    (0 ≤ (IPM.step tau Xtol GOLD fuel p dp).1 ∧ (IPM.step tau Xtol GOLD fuel p dp).1 ≤ 1 ∧
      stepViolB tau (IPM.step tau Xtol GOLD fuel p dp).1 p dp = false) ∧
    (stepViolB tau 1 p dp = false → IPM.step tau Xtol GOLD fuel p dp = (1, true)) ∧
    (stepViolB tau 1 p dp = true → (IPM.step tau Xtol GOLD fuel p dp).2 = true →
      ∀ t, 0 ≤ t → stepViolB tau t p dp = false →
        t ≤ (IPM.step tau Xtol GOLD fuel p dp).1 + GOLD * Xtol) := by
  refine ⟨step_basic tau Xtol GOLD fuel p dp hG1 hG2 hX h0 hp, ?_, ?_⟩
  · intro hfull
    unfold IPM.step
    rw [if_neg (by rw [hfull]; exact Bool.false_ne_true)]
  · intro hviol
    unfold IPM.step
    rw [if_pos hviol]
    exact (stepGo_spec tau Xtol GOLD p dp hG1 hG2 hX h0 hp fuel 0 1 le_rfl zero_le_one le_rfl
      (stepViolB_zero tau p dp h0 hp) hviol).2

/-- Witness for C7 at a concrete input: p = [1], dp = [-2], tau = 0.995. -/
theorem C7_step_fraction_to_boundary_witness :
    (0 ≤ (IPM.step (995 / 1000) (1 / 2 ^ 10) (13 / 8) 100 [1] [-2]).1 ∧
      (IPM.step (995 / 1000) (1 / 2 ^ 10) (13 / 8) 100 [1] [-2]).1 ≤ 1 ∧
      stepViolB (995 / 1000) (IPM.step (995 / 1000) (1 / 2 ^ 10) (13 / 8) 100 [1] [-2]).1
        [1] [-2] = false) ∧
    (stepViolB (995 / 1000) 1 [1] [-2] = false →
      IPM.step (995 / 1000) (1 / 2 ^ 10) (13 / 8) 100 [1] [-2] = (1, true)) ∧
    (stepViolB (995 / 1000) 1 [1] [-2] = true →
      (IPM.step (995 / 1000) (1 / 2 ^ 10) (13 / 8) 100 [1] [-2]).2 = true →
      ∀ t, 0 ≤ t → stepViolB (995 / 1000) t [1] [-2] = false →
        t ≤ (IPM.step (995 / 1000) (1 / 2 ^ 10) (13 / 8) 100 [1] [-2]).1 + 13 / 8 * (1 / 2 ^ 10)) :=
  C7_step_fraction_to_boundary (995 / 1000) (1 / 2 ^ 10) (13 / 8) 100 [1] [-2]
    (by norm_num) (by norm_num) (by norm_num) (by norm_num) (by norm_num)
    (by with_unfolding_all decide)

/-- While loop of reghess: whenever it returns, the eigenvalue kernel
reports exactly M + N eigenvalues below -eps for the returned matrix. -/
theorem reghessGo_post (eigh : Mat → Vec) (eps : ℚ) (nvar neq nineq : ℕ) :
    ∀ (fuel : ℕ) (Hc : Mat) (delta : ℚ) (Hd : Mat × ℚ),
      IPM.reghessGo eigh eps nvar neq nineq fuel Hc delta = some Hd →
      (eigh Hd.1).countP (fun wi => decide (wi < -eps)) = neq + nineq := by
  intro fuel
  induction fuel with
  | zero =>
    intro Hc delta Hd h
    simp [IPM.reghessGo] at h
  | succ n ih =>
    intro Hc delta Hd h
    rw [IPM.reghessGo] at h
    by_cases hc : (neq + nineq : ℕ) ≠ (eigh Hc).countP (fun wi => decide (wi < -eps))
    · rw [if_pos hc] at h
      exact ih _ _ _ h
    · rw [if_neg hc] at h
      obtain rfl : (Hc, delta) = Hd := Option.some.inj h
      exact (not_ne_iff.mp hc).symm

/-- C4 counterexample: in exact-Hessian mode with D = 1, M = N = 0, eps =
2^-52 and delta0 = sqrt(eps) = 2^-26 (a float64 build), reghess applied to
the 1 x 1 matrix [[-10 * 2^-26]] returns the matrix [[0]] (the final
delta*10 shift lands exactly on zero and 0 is not below -eps, so the loop
accepts), whose exact inertia is (0, 0, 1) and not the claimed
(D, M+N, 0) = (1, 0, 0): the returned matrix has a zero eigenvalue and no
positive eigenvalue. -/
theorem C4_counterexample :
    IPM.reghess eig1 (1 / 2 ^ 52) (1 / 2 ^ 26) (1 / 10 ^ 4) 1 (1 / 2 ^ 26) 1 0 0 3
        [[-(10 / 2 ^ 26)]] 0 = some ([[0]], 10 / 2 ^ 26) ∧
    inertiaOf (eig1 [[(0 : ℚ)]]) ≠ (1, 0, 0) := by
  constructor
  · norm_num [IPM.reghess, IPM.reghessGo, diagShift, eig1, mapIdxFrom, listMin, listMax]
  · norm_num [inertiaOf, eig1, List.countP, List.countP.go]

/-- C4 amended: whenever reghess returns (in exact-Hessian mode), the count
of reported eigenvalues of the returned matrix below -eps equals M + N, on
both the unmodified path and after the delta loop; the stronger exact
inertia (D, M+N, 0) - exactly D positives and no zero eigenvalues - is not
guaranteed (see the counterexample). -/
theorem C4_reghess_negcount (eigh : Mat → Vec) (eps reg_coef eta1 muBeta delta0 : ℚ)
    (nvar neq nineq fuel : ℕ) (Hc : Mat) (delta : ℚ) (Hd : Mat × ℚ)
    (h : IPM.reghess eigh eps reg_coef eta1 muBeta delta0 nvar neq nineq fuel Hc delta =
      some Hd) :
    (eigh Hd.1).countP (fun wi => decide (wi < -eps)) = neq + nineq := by
  rw [IPM.reghess] at h
  by_cases hc :
      listMin ((eigh Hc).map (fun a => |a|)) / listMax ((eigh Hc).map (fun a => |a|)) ≤ eps ∨
      (neq + nineq : ℕ) ≠ (eigh Hc).countP (fun wi => decide (wi < -eps))
  · rw [if_pos hc] at h
    exact reghessGo_post eigh eps nvar neq nineq fuel _ _ Hd h
  · rw [if_neg hc] at h
    obtain rfl : (Hc, delta) = Hd := Option.some.inj h
    exact (not_ne_iff.mp (not_or.mp hc).2).symm

/-- Witness for C4 at the concrete regularization run of the
counterexample's input. -/
theorem C4_reghess_negcount_witness :
    (eig1 [[(0 : ℚ)]]).countP (fun wi => decide (wi < -(1 / 2 ^ 52))) = 0 + 0 :=
  C4_reghess_negcount eig1 (1 / 2 ^ 52) (1 / 2 ^ 26) (1 / 10 ^ 4) 1 (1 / 2 ^ 26) 1 0 0 3
    [[-(10 / 2 ^ 26)]] 0 ([[0]], 10 / 2 ^ 26)
    (by norm_num [IPM.reghess, IPM.reghessGo, diagShift, eig1, mapIdxFrom, listMin, listMax])

/-- C10: when lbfgs is enabled and a non-None lbfgs_zeta argument is
passed, the attribute self.lbfgs_zeta is never assigned (modelled as none),
so the first lbfgs_init call fails with AttributeError (modelled as none);
with the default None argument the attribute is set to 1 and lbfgs_init
succeeds with initial scaling zeta = 1. -/
theorem C10_lbfgs_zeta_attr (lbfgs : ℕ) (z : ℚ) (hl : lbfgs ≠ 0) :
    IPM.init_lbfgs_zeta_attr lbfgs (some z) = none ∧
    IPM.lbfgs_init (IPM.init_lbfgs_zeta_attr lbfgs (some z)) = none ∧
    IPM.init_lbfgs_zeta_attr lbfgs none = some 1 ∧
    IPM.lbfgs_init (IPM.init_lbfgs_zeta_attr lbfgs none) = some (IPM.lbfgs_empty 1) := by
  refine ⟨?_, ?_, ?_, ?_⟩ <;> simp [IPM.init_lbfgs_zeta_attr, IPM.lbfgs_init, hl]

/-- Witness for C10 with lbfgs memory 4 and lbfgs_zeta argument 1/2. -/
theorem C10_lbfgs_zeta_attr_witness :
    IPM.init_lbfgs_zeta_attr 4 (some (1 / 2)) = none ∧
    IPM.lbfgs_init (IPM.init_lbfgs_zeta_attr 4 (some (1 / 2))) = none ∧
    IPM.init_lbfgs_zeta_attr 4 none = some 1 ∧
    IPM.lbfgs_init (IPM.init_lbfgs_zeta_attr 4 none) = some (IPM.lbfgs_empty 1) :=
  C10_lbfgs_zeta_attr 4 (1 / 2) (by decide)

/-- Dot product with a negated vector. -/
theorem dot_negv (r v : Vec) : dot r (negv v) = -dot r v := by
  induction r generalizing v with
  | nil => simp [dot, negv]
  | cons a t ih =>
    cases v with
    | nil => simp [dot, negv]
    | cons b u =>
      simp only [negv, List.map_cons, dot, List.zipWith_cons_cons, List.sum_cons]
      have ih' := ih u
      simp only [dot, negv] at ih'
      rw [ih']
      ring

/-- Matrix application to a negated vector. -/
theorem matVec_negv (m : Mat) (v : Vec) : matVec m (negv v) = negv (matVec m v) := by
  simp only [matVec, negv, List.map_map]
  refine List.map_congr_left ?_
  intro r _
  simpa using dot_negv r v

/-- C9: write A for the transpose of the constraint Jacobian at x0 and
c_new for the trial constraint residual.  First, when the symmetric solve
succeeds with a solution v of A v = c_new, the correction direction of the
inequality branch satisfies B^T dz_p = -c_new where B is the constraint
Jacobian (A = B^T).  Second, when the symmetric solve fails, the direction
is the negated least-squares minimum-norm solution.  Third, a failing
symmetric solve in the correction path is never surfaced to the caller of
search: search with an always-failing solver returns exactly what it would
return with a solver returning the least-squares solution, a normal
result. -/
theorem C9_soc_solve_and_fallback :
    (∀ (O : Oracle) (L : LinOracle) (x0 c_new v : Vec),
      O.M + O.N = O.D + O.N →
      L.symSolve (transposeM (O.M + O.N) (IPM.jaco O x0)) c_new = some v →
      matVec (transposeM (O.M + O.N) (IPM.jaco O x0)) v = c_new →
      matVec (transposeM (O.M + O.N) (IPM.jaco O x0)) (IPM.soc_dir O L x0 c_new) =
        negv c_new) ∧
    (∀ (O : Oracle) (L : LinOracle) (x0 c_new : Vec),
      L.symSolve (transposeM (O.M + O.N) (IPM.jaco O x0)) c_new = none →
      IPM.soc_dir O L x0 c_new =
        negv (L.lstsq (transposeM (O.M + O.N) (IPM.jaco O x0)) c_new)) ∧
    (∀ (O : Oracle) (g : Mat → Vec → Vec) (eps tau eta1 Xtol GOLD : ℚ) (fuel : ℕ)
      (mu nu : ℚ) (x0 s0 lda0 dz : Vec) (asx alx : ℚ),
      IPM.search O ⟨fun _ _ => none, g⟩ eps tau eta1 Xtol GOLD fuel mu nu x0 s0 lda0 dz asx alx =
      IPM.search O ⟨fun A b => some (g A b), g⟩ eps tau eta1 Xtol GOLD fuel mu nu x0 s0 lda0 dz
        asx alx) := by
  refine ⟨?_, ?_, ?_⟩
  · intro O L x0 c_new v hdim hsolve hv
    unfold IPM.soc_dir
    rw [if_pos hdim, hsolve]
    rw [matVec_negv, hv]
  · intro O L x0 c_new hsolve
    unfold IPM.soc_dir
    by_cases hdim : O.M + O.N = O.D + O.N
    · rw [if_pos hdim, hsolve]
    · rw [if_neg hdim]
  · intro O g eps tau eta1 Xtol GOLD fuel mu nu x0 s0 lda0 dz asx alx
    have hsoc : ∀ (x c : Vec),
        IPM.soc_dir O ⟨fun _ _ => none, g⟩ x c = IPM.soc_dir O ⟨fun A b => some (g A b), g⟩ x c := by
      intro x c
      unfold IPM.soc_dir
      by_cases hdim : O.M + O.N = O.D + O.N
      · rw [if_pos hdim]
      · rw [if_neg hdim]
    have hres : IPM.searchRes O ⟨fun _ _ => none, g⟩ eps tau eta1 Xtol GOLD fuel mu nu x0 s0 dz
        asx (if O.M ≠ 0 ∨ O.N ≠ 0 then alx else 0) =
        IPM.searchRes O ⟨fun A b => some (g A b), g⟩ eps tau eta1 Xtol GOLD fuel mu nu x0 s0 dz
        asx (if O.M ≠ 0 ∨ O.N ≠ 0 then alx else 0) := by
      unfold IPM.searchRes IPM.soc_dir_eq
      simp only [hsoc]
    rw [IPM.search, IPM.search, hres]

/-- C8 counterexample: a rejected update (dx = 0, so dx.dg = 0 is not above
sqrt(eps)) arriving with failure count 2 at memory limit 2 and one stored
column does not leave the arrays, zeta and the counter as the claim states:
the storage is reset to empty, zeta to the initial 1 and the counter to 0,
instead of keeping (5, [[1]], [[1]], [[1]], [[1]], [[0]]) with counter 3. -/
theorem C8_counterexample :
    IPM.lbfgs_update false (1 / 2 ^ 52) (1 / 2 ^ 26) 1 2 1 [0] [0] [0] [0] 5
        [[1]] [[1]] [[1]] [[1]] [[0]] 2 = (1, [], [], [], [], [], 0) ∧
    ((1, [], [], [], [], [], 0) : ℚ × List Vec × List Vec × Mat × Mat × Mat × ℕ) ≠
      (5, [[1]], [[1]], [[1]], [[1]], [[0]], 2 + 1) := by
  constructor
  · norm_num [IPM.lbfgs_update, IPM.lbfgs_empty, subv, dot]
  · simp

/-- C8 amended: the incoming pair (dx, dg) is committed to the storage
arrays if and only if dx.dg > sqrt(eps) and zeta_new > sqrt(eps), with
zeta_new = dg.dx/(dx.dx + eps) in constrained mode and dg.dx/(dg.dg + eps)
in unconstrained mode; on acceptance zeta becomes zeta_new and the oldest
column is dropped first when the memory limit is exceeded; on rejection the
failure counter is incremented and the arrays and zeta are unchanged,
UNLESS the incremented counter exceeds the limit while columns are stored,
in which case the whole storage is reset to empty with zeta back to the
stored initial scaling (this reset is what the original claim missed). -/
theorem C8_lbfgs_commit_iff (constrained : Bool) (eps sqrtEps zeta0 : ℚ) (mMax nvar : ℕ)
    (x_old x_new g_old g_new : Vec) (zeta : ℚ) (S Y : List Vec) (SS Lm Dm : Mat) (fail : ℕ) :
    (((IPM.lbfgs_update constrained eps sqrtEps zeta0 mMax nvar x_old x_new g_old g_new zeta
          S Y SS Lm Dm fail).2.1 =
        (if S.length > mMax then S.tail else S) ++ [subv x_new x_old] ∧
      (IPM.lbfgs_update constrained eps sqrtEps zeta0 mMax nvar x_old x_new g_old g_new zeta
          S Y SS Lm Dm fail).2.2.1 =
        (if S.length > mMax then Y.tail else Y) ++ [subv (g_old.take nvar) (g_new.take nvar)] ∧
      (IPM.lbfgs_update constrained eps sqrtEps zeta0 mMax nvar x_old x_new g_old g_new zeta
          S Y SS Lm Dm fail).2.2.2.2.2.2 = 0) ↔
      (dot (subv x_new x_old) (subv (g_old.take nvar) (g_new.take nvar)) > sqrtEps ∧
        (if constrained then
          dot (subv (g_old.take nvar) (g_new.take nvar)) (subv x_new x_old) /
            (dot (subv x_new x_old) (subv x_new x_old) + eps)
        else
          dot (subv (g_old.take nvar) (g_new.take nvar)) (subv x_new x_old) /
            (dot (subv (g_old.take nvar) (g_new.take nvar))
              (subv (g_old.take nvar) (g_new.take nvar)) + eps)) > sqrtEps)) ∧
    ((dot (subv x_new x_old) (subv (g_old.take nvar) (g_new.take nvar)) > sqrtEps ∧
        (if constrained then
          dot (subv (g_old.take nvar) (g_new.take nvar)) (subv x_new x_old) /
            (dot (subv x_new x_old) (subv x_new x_old) + eps)
        else
          dot (subv (g_old.take nvar) (g_new.take nvar)) (subv x_new x_old) /
            (dot (subv (g_old.take nvar) (g_new.take nvar))
              (subv (g_old.take nvar) (g_new.take nvar)) + eps)) > sqrtEps) →
      (IPM.lbfgs_update constrained eps sqrtEps zeta0 mMax nvar x_old x_new g_old g_new zeta
          S Y SS Lm Dm fail).1 =
        (if constrained then
          dot (subv (g_old.take nvar) (g_new.take nvar)) (subv x_new x_old) /
            (dot (subv x_new x_old) (subv x_new x_old) + eps)
        else
          dot (subv (g_old.take nvar) (g_new.take nvar)) (subv x_new x_old) /
            (dot (subv (g_old.take nvar) (g_new.take nvar))
              (subv (g_old.take nvar) (g_new.take nvar)) + eps))) ∧
    (¬(dot (subv x_new x_old) (subv (g_old.take nvar) (g_new.take nvar)) > sqrtEps ∧
        (if constrained then
          dot (subv (g_old.take nvar) (g_new.take nvar)) (subv x_new x_old) /
            (dot (subv x_new x_old) (subv x_new x_old) + eps)
        else
          dot (subv (g_old.take nvar) (g_new.take nvar)) (subv x_new x_old) /
            (dot (subv (g_old.take nvar) (g_new.take nvar))
              (subv (g_old.take nvar) (g_new.take nvar)) + eps)) > sqrtEps) →
      ((fail + 1 > mMax ∧ S ≠ [] →
        IPM.lbfgs_update constrained eps sqrtEps zeta0 mMax nvar x_old x_new g_old g_new zeta
          S Y SS Lm Dm fail = IPM.lbfgs_empty zeta0) ∧
       (¬(fail + 1 > mMax ∧ S ≠ []) →
        IPM.lbfgs_update constrained eps sqrtEps zeta0 mMax nvar x_old x_new g_old g_new zeta
          S Y SS Lm Dm fail = (zeta, S, Y, SS, Lm, Dm, fail + 1)))) := by
  simp only [IPM.lbfgs_update]
  by_cases hcond :
      dot (subv x_new x_old) (subv (g_old.take nvar) (g_new.take nvar)) > sqrtEps ∧
      (if constrained then
        dot (subv (g_old.take nvar) (g_new.take nvar)) (subv x_new x_old) /
          (dot (subv x_new x_old) (subv x_new x_old) + eps)
      else
        dot (subv (g_old.take nvar) (g_new.take nvar)) (subv x_new x_old) /
          (dot (subv (g_old.take nvar) (g_new.take nvar))
            (subv (g_old.take nvar) (g_new.take nvar)) + eps)) > sqrtEps
  · rw [if_pos hcond]
    have hnr : ¬((0 : ℕ) > mMax ∧
        ((if decide (S.length > mMax) = true then S.tail ++ [subv x_new x_old]
          else S ++ [subv x_new x_old]).length > 0)) := by
      intro h
      exact Nat.not_lt_zero mMax h.1
    rw [if_neg hnr]
    refine ⟨?_, ?_, ?_⟩
    · constructor
      · intro _
        exact hcond
      · intro _
        refine ⟨?_, ?_, rfl⟩
        · by_cases hlen : S.length > mMax
          · simp [hlen]
          · simp [hlen]
        · by_cases hlen : S.length > mMax
          · simp [hlen]
          · simp [hlen]
    · intro _
      rfl
    · intro hc
      exact absurd hcond hc
  · rw [if_neg hcond]
    refine ⟨?_, ?_, ?_⟩
    · constructor
      · intro h
        by_cases hr : fail + 1 > mMax ∧ S.length > 0
        · rw [if_pos hr] at h
          obtain ⟨h1, _, _⟩ := h
          exact absurd h1.symm (List.append_ne_nil_of_right_ne_nil _ (by simp))
        · rw [if_neg hr] at h
          exact absurd h.2.2 (Nat.succ_ne_zero fail)
      · intro h
        exact absurd h hcond
    · intro h
      exact absurd h hcond
    · intro _
      constructor
      · intro hr
        rw [if_pos ⟨hr.1, List.length_pos.mpr hr.2⟩]
      · intro hr
        rw [if_neg (by
          intro hx
          exact hr ⟨hx.1, List.length_pos.mp hx.2⟩)]

/-- Writing a segment at the front of a zero vector. -/
theorem setSeg_zeros (n : ℕ) (w : Vec) :
    setSeg (zerosV n) 0 w = w ++ zerosV (n - w.length) := by
  simp [setSeg, zerosV, List.drop_replicate]

/-- Writing a segment right after a known prefix. -/
theorem setSeg_at (u v w : Vec) (n : ℕ) (h : u.length = n) :
    setSeg (u ++ v) n w = u ++ w ++ v.drop w.length := by
  subst h
  simp only [setSeg, List.take_left]
  rw [← List.drop_drop, List.drop_left]

/-- Splitting a zero vector. -/
theorem zerosV_add (a b : ℕ) : zerosV (a + b) = zerosV a ++ zerosV b :=
  List.replicate_add a b 0

/-- The length of an elementwise difference of two equal-length vectors. -/
theorem subv_length (v w : Vec) (n : ℕ) (hv : v.length = n) (hw : w.length = n) :
    (subv v w).length = n := by
  simp [subv, hv, hw]

/-- The length of a matrix-vector product is the number of rows. -/
theorem matVec_length (m : Mat) (v : Vec) : (matVec m v).length = m.length := by
  simp [matVec]

/-- The four set_subtensor writes of the grad expression assemble one
concatenation when all constraint kinds are present. -/
theorem setSeg4 (d n m : ℕ) (b1 b2 b3 b4 : Vec)
    (h1 : b1.length = d) (h2 : b2.length = n) (h3 : b3.length = m) (h4 : b4.length = n) :
    setSeg (setSeg (setSeg (setSeg (zerosV (d + 2 * n + m)) 0 b1) d b2) (d + n + m) b4)
      (d + n) b3 = b1 ++ b2 ++ b3 ++ b4 := by
  subst h1
  subst h2
  subst h3
  rw [setSeg_zeros]
  rw [show b1.length + 2 * b2.length + b3.length - b1.length =
    b2.length + b3.length + b2.length from by omega]
  rw [zerosV_add, zerosV_add]
  rw [setSeg_at b1 ((zerosV b2.length ++ zerosV b3.length) ++ zerosV b2.length) b2
    b1.length rfl]
  have e1 : ((zerosV b2.length ++ zerosV b3.length) ++ zerosV b2.length).drop b2.length
      = zerosV b3.length ++ zerosV b2.length := by
    rw [List.append_assoc]
    exact List.drop_left' (by simp [zerosV])
  rw [e1]
  rw [← List.append_assoc (b1 ++ b2) (zerosV b3.length) (zerosV b2.length)]
  rw [setSeg_at ((b1 ++ b2) ++ zerosV b3.length) (zerosV b2.length) b4
    (b1.length + b2.length + b3.length)
    (by simp only [List.length_append, zerosV, List.length_replicate])]
  rw [h4]
  have e2 : (zerosV b2.length).drop b2.length = ([] : Vec) := by simp [zerosV]
  rw [e2, List.append_nil]
  rw [List.append_assoc (b1 ++ b2) (zerosV b3.length) b4]
  rw [setSeg_at (b1 ++ b2) (zerosV b3.length ++ b4) b3 (b1.length + b2.length) (by simp)]
  have e3 : (zerosV b3.length ++ b4).drop b3.length = b4 := List.drop_left' (by simp [zerosV])
  rw [e3]

/-- The two set_subtensor writes of the grad expression when only equality
constraints are present (n = 0). -/
theorem setSeg2_eq (d n m : ℕ) (b1 b3 : Vec) (hn : n = 0)
    (h1 : b1.length = d) (h3 : b3.length = m) :
    setSeg (setSeg (zerosV (d + 2 * n + m)) 0 b1) (d + n) b3 = b1 ++ b3 := by
  subst hn
  subst h1
  subst h3
  rw [setSeg_zeros]
  rw [show b1.length + 2 * 0 + b3.length - b1.length = b3.length from by omega]
  rw [setSeg_at b1 (zerosV b3.length) b3 (b1.length + 0) (by omega)]
  simp [zerosV]

/-- The three set_subtensor writes of the grad expression when only
inequality constraints are present (m = 0). -/
theorem setSeg3_ineq (d n m : ℕ) (b1 b2 b4 : Vec) (hm : m = 0)
    (h1 : b1.length = d) (h2 : b2.length = n) (h4 : b4.length = n) :
    setSeg (setSeg (setSeg (zerosV (d + 2 * n + m)) 0 b1) d b2) (d + n + m) b4 =
      b1 ++ b2 ++ b4 := by
  subst hm
  subst h1
  subst h2
  rw [setSeg_zeros]
  rw [show b1.length + 2 * b2.length + 0 - b1.length = b2.length + b2.length from by omega]
  rw [zerosV_add]
  rw [setSeg_at b1 (zerosV b2.length ++ zerosV b2.length) b2 b1.length rfl]
  have e1 : (zerosV b2.length ++ zerosV b2.length).drop b2.length = zerosV b2.length :=
    List.drop_left' (by simp [zerosV])
  rw [e1]
  rw [setSeg_at (b1 ++ b2) (zerosV b2.length) b4 (b1.length + b2.length + 0) (by simp)]
  rw [h4]
  simp [zerosV]

/-- Slicing a four-block concatenation back into its blocks. -/
theorem append4_slices (b1 b2 b3 b4 : Vec) (d n m : ℕ)
    (h1 : b1.length = d) (h2 : b2.length = n) (h3 : b3.length = m) :
    ((b1 ++ b2 ++ b3 ++ b4).take d = b1) ∧
    (((b1 ++ b2 ++ b3 ++ b4).drop d).take n = b2) ∧
    (((b1 ++ b2 ++ b3 ++ b4).drop (d + n)).take m = b3) ∧
    ((b1 ++ b2 ++ b3 ++ b4).drop (d + n + m) = b4) := by
  subst h1
  subst h2
  subst h3
  refine ⟨?_, ?_, ?_, ?_⟩
  · rw [List.append_assoc, List.append_assoc]
    exact List.take_left b1 (b2 ++ (b3 ++ b4))
  · rw [List.append_assoc, List.append_assoc, List.drop_left]
    exact List.take_left b2 (b3 ++ b4)
  · rw [List.append_assoc (b1 ++ b2) b3 b4]
    have e : ((b1 ++ b2) ++ (b3 ++ b4)).drop (b1.length + b2.length) = b3 ++ b4 :=
      List.drop_left' (by simp)
    rw [e]
    exact List.take_left b3 b4
  · exact List.drop_left' (by simp only [List.length_append])

/-- Slicing a three-block concatenation back into its blocks. -/
theorem append3_slices (b1 b2 b4 : Vec) (d n : ℕ)
    (h1 : b1.length = d) (h2 : b2.length = n) :
    ((b1 ++ b2 ++ b4).take d = b1) ∧
    (((b1 ++ b2 ++ b4).drop d).take n = b2) ∧
    ((b1 ++ b2 ++ b4).drop (d + n) = b4) := by
  subst h1
  subst h2
  refine ⟨?_, ?_, ?_⟩
  · rw [List.append_assoc]
    exact List.take_left b1 (b2 ++ b4)
  · rw [List.append_assoc, List.drop_left]
    exact List.take_left b2 b4
  · exact List.drop_left' (by simp only [List.length_append])

/-- Gradient layout with both constraint kinds (M, N nonzero): the four
blocks in the order primal, slack, equality, inequality. -/
theorem grad_eq_both (O : Oracle) (eps mu : ℚ) (x s lda : Vec)
    (hM : O.M ≠ 0) (hN : O.N ≠ 0)
    (hdf : (O.df x).length = O.D) (hdce : (O.dce x).length = O.D)
    (hdci : (O.dci x).length = O.D) (hce : (O.ce x).length = O.M)
    (hci : (O.ci x).length = O.N) (hs : s.length = O.N) (hlda : lda.length = O.M + O.N) :
    IPM.grad O eps mu x s lda =
      subv (subv (O.df x) (matVec (O.dce x) (lda.take O.M))) (matVec (O.dci x) (lda.drop O.M)) ++
      subv (lda.drop O.M) (s.map (fun si => mu / (si + eps))) ++
      O.ce x ++
      subv (O.ci x) s := by
  have hb1 : (subv (subv (O.df x) (matVec (O.dce x) (lda.take O.M)))
      (matVec (O.dci x) (lda.drop O.M))).length = O.D := by
    apply subv_length
    · exact subv_length _ _ _ hdf (by rw [matVec_length, hdce])
    · rw [matVec_length, hdci]
  have hb2 : (subv (lda.drop O.M) (s.map (fun si => mu / (si + eps)))).length = O.N := by
    apply subv_length
    · rw [List.length_drop, hlda]
      omega
    · rw [List.length_map, hs]
  have hb4 : (subv (O.ci x) s).length = O.N := subv_length _ _ _ hci hs
  simp only [IPM.grad, if_pos (And.intro hM hN), if_pos hN, if_pos hM]
  exact setSeg4 O.D O.N O.M _ _ _ _ hb1 hb2 hce hb4

/-- Gradient layout with only equality constraints. -/
theorem grad_eq_eqonly (O : Oracle) (eps mu : ℚ) (x s lda : Vec)
    (hM : O.M ≠ 0) (hN : O.N = 0)
    (hdf : (O.df x).length = O.D) (hdce : (O.dce x).length = O.D)
    (hce : (O.ce x).length = O.M) :
    IPM.grad O eps mu x s lda =
      subv (O.df x) (matVec (O.dce x) lda) ++ O.ce x := by
  have hb1 : (subv (O.df x) (matVec (O.dce x) lda)).length = O.D :=
    subv_length _ _ _ hdf (by rw [matVec_length, hdce])
  have h12 : ¬(O.M ≠ 0 ∧ O.N ≠ 0) := fun h => h.2 hN
  have hN' : ¬O.N ≠ 0 := fun h => h hN
  simp only [IPM.grad, if_neg h12, if_pos hM, if_neg hN']
  exact setSeg2_eq O.D O.N O.M _ _ hN hb1 hce

/-- Gradient layout with only inequality constraints. -/
theorem grad_eq_ineqonly (O : Oracle) (eps mu : ℚ) (x s lda : Vec)
    (hM : O.M = 0) (hN : O.N ≠ 0)
    (hdf : (O.df x).length = O.D) (hdci : (O.dci x).length = O.D)
    (hci : (O.ci x).length = O.N) (hs : s.length = O.N) (hlda : lda.length = O.N) :
    IPM.grad O eps mu x s lda =
      subv (O.df x) (matVec (O.dci x) lda) ++
      subv lda (s.map (fun si => mu / (si + eps))) ++
      subv (O.ci x) s := by
  have hb1 : (subv (O.df x) (matVec (O.dci x) lda)).length = O.D :=
    subv_length _ _ _ hdf (by rw [matVec_length, hdci])
  have hb2 : (subv lda (s.map (fun si => mu / (si + eps)))).length = O.N :=
    subv_length _ _ _ hlda (by rw [List.length_map, hs])
  have hb4 : (subv (O.ci x) s).length = O.N := subv_length _ _ _ hci hs
  have h12 : ¬(O.M ≠ 0 ∧ O.N ≠ 0) := fun h => h.1 hM
  have hM' : ¬O.M ≠ 0 := fun h => h hM
  simp only [IPM.grad, if_neg h12, if_neg hM', if_pos hN]
  simp only [hM, List.drop_zero]
  exact setSeg3_ineq O.D O.N 0 _ _ _ rfl hb1 hb2 hb4

/-- Gradient layout of an unconstrained problem: just the objective
gradient. -/
theorem grad_eq_none (O : Oracle) (eps mu : ℚ) (x s lda : Vec)
    (hM : O.M = 0) (hN : O.N = 0) (hdf : (O.df x).length = O.D) :
    IPM.grad O eps mu x s lda = O.df x := by
  have h12 : ¬(O.M ≠ 0 ∧ O.N ≠ 0) := fun h => h.1 hM
  have hM' : ¬O.M ≠ 0 := fun h => h hM
  have hN' : ¬O.N ≠ 0 := fun h => h hN
  simp only [IPM.grad, if_neg h12, if_neg hM', if_neg hN']
  rw [setSeg_zeros, hdf, show O.D + 2 * O.N + O.M - O.D = 0 from by omega]
  simp [zerosV]

set_option maxHeartbeats 1000000 in
/-- C2: corrected form of the KKT block layout.  For well-formed oracle
output lengths, IPM.KKT returns the four blocks in the order kkt1 =
grad f - dce lda[:M] - dci lda[M:], kkt2 = (lda[M:] - mu / (s + eps)) * s
elementwise, kkt3 = ce(x), kkt4 = ci(x) - s, with the blocks of absent
constraint sets returned as the scalar 0.  The slack residual divides mu by
s + eps (the float-machine-epsilon guard of line 419 of src/pyipm.py), not
by s as the specification states; C2_counterexample separates the two. -/
theorem C2_kkt_blocks (O : Oracle) (eps mu : ℚ) (x s lda : Vec)
    (hdf : (O.df x).length = O.D) (hdce : (O.dce x).length = O.D)
    (hdci : (O.dci x).length = O.D) (hce : (O.ce x).length = O.M)
    (hci : (O.ci x).length = O.N) (hs : s.length = O.N)
    (hlda : lda.length = O.M + O.N) :
    IPM.KKT O eps mu x s lda =
      if O.M ≠ 0 ∧ O.N ≠ 0 then
        [Blk.vec (subv (subv (O.df x) (matVec (O.dce x) (lda.take O.M)))
            (matVec (O.dci x) (lda.drop O.M))),
         Blk.vec (List.zipWith (· * ·)
            (subv (lda.drop O.M) (s.map (fun si => mu / (si + eps)))) s),
         Blk.vec (O.ce x),
         Blk.vec (subv (O.ci x) s)]
      else if O.M ≠ 0 then
        [Blk.vec (subv (O.df x) (matVec (O.dce x) lda)),
         Blk.scalar 0,
         Blk.vec (O.ce x),
         Blk.scalar 0]
      else if O.N ≠ 0 then
        [Blk.vec (subv (O.df x) (matVec (O.dci x) lda)),
         Blk.vec (List.zipWith (· * ·)
            (subv lda (s.map (fun si => mu / (si + eps)))) s),
         Blk.scalar 0,
         Blk.vec (subv (O.ci x) s)]
      else
        [Blk.vec (O.df x), Blk.scalar 0, Blk.scalar 0, Blk.scalar 0] := by
  by_cases hM : O.M ≠ 0 <;> by_cases hN : O.N ≠ 0
  · have hb1 : (subv (subv (O.df x) (matVec (O.dce x) (lda.take O.M)))
        (matVec (O.dci x) (lda.drop O.M))).length = O.D := by
      apply subv_length
      · exact subv_length _ _ _ hdf (by rw [matVec_length, hdce])
      · rw [matVec_length, hdci]
    have hb2 : (subv (lda.drop O.M) (s.map (fun si => mu / (si + eps)))).length = O.N := by
      apply subv_length
      · rw [List.length_drop, hlda]
        omega
      · rw [List.length_map, hs]
    have hg := grad_eq_both O eps mu x s lda hM hN hdf hdce hdci hce hci hs hlda
    simp only [IPM.KKT, if_pos (And.intro hM hN)]
    rw [hg]
    obtain ⟨t1, t2, t3, t4⟩ := append4_slices _ _ _ (subv (O.ci x) s) O.D O.N O.M hb1 hb2 hce
    rw [t1, t2, t3, t4]
  · have hN0 : O.N = 0 := by omega
    have h12 : ¬(O.M ≠ 0 ∧ O.N ≠ 0) := fun h => hN h.2
    have hb1 : (subv (O.df x) (matVec (O.dce x) lda)).length = O.D :=
      subv_length _ _ _ hdf (by rw [matVec_length, hdce])
    have hg := grad_eq_eqonly O eps mu x s lda hM hN0 hdf hdce hce
    simp only [IPM.KKT, if_neg h12, if_pos hM]
    rw [hg]
    have t1 : ((subv (O.df x) (matVec (O.dce x) lda)) ++ O.ce x).take O.D =
        subv (O.df x) (matVec (O.dce x) lda) := List.take_left' hb1
    have t3 : (((subv (O.df x) (matVec (O.dce x) lda)) ++ O.ce x).drop (O.D + O.N)).take O.M =
        O.ce x := by
      rw [show O.D + O.N = O.D from by omega, List.drop_left' hb1, ← hce, List.take_length]
    rw [t1, t3]
  · have hM0 : O.M = 0 := by omega
    have h12 : ¬(O.M ≠ 0 ∧ O.N ≠ 0) := fun h => hM h.1
    have hlda' : lda.length = O.N := by omega
    have hb1 : (subv (O.df x) (matVec (O.dci x) lda)).length = O.D :=
      subv_length _ _ _ hdf (by rw [matVec_length, hdci])
    have hb2 : (subv lda (s.map (fun si => mu / (si + eps)))).length = O.N :=
      subv_length _ _ _ hlda' (by rw [List.length_map, hs])
    have hg := grad_eq_ineqonly O eps mu x s lda hM0 hN hdf hdci hci hs hlda'
    simp only [IPM.KKT, if_neg h12, if_neg hM, if_pos hN]
    rw [hg]
    obtain ⟨t1, t2, t4⟩ := append3_slices _ _ (subv (O.ci x) s) O.D O.N hb1 hb2
    rw [show O.D + O.N + O.M = O.D + O.N from by omega, t1, t2, t4]
  · have hM0 : O.M = 0 := by omega
    have hN0 : O.N = 0 := by omega
    have h12 : ¬(O.M ≠ 0 ∧ O.N ≠ 0) := fun h => hM h.1
    have hg := grad_eq_none O eps mu x s lda hM0 hN0 hdf
    simp only [IPM.KKT, if_neg h12, if_neg hM, if_neg hN]
    rw [hg, ← hdf, List.take_length]

/-- Witness for C2: the block layout theorem applied to the concrete mixed
problem kktOracle2 at x = [0], s = [1], lda = [2, 3], with every length
hypothesis discharged by rfl. -/
theorem C2_kkt_blocks_witness :
    IPM.KKT kktOracle2 1 1 [0] [1] [2, 3] =
      if kktOracle2.M ≠ 0 ∧ kktOracle2.N ≠ 0 then
        [Blk.vec (subv (subv (kktOracle2.df [0])
            (matVec (kktOracle2.dce [0]) (List.take kktOracle2.M [2, 3])))
            (matVec (kktOracle2.dci [0]) (List.drop kktOracle2.M [2, 3]))),
         Blk.vec (List.zipWith (· * ·)
            (subv (List.drop kktOracle2.M [2, 3])
              (List.map (fun si => 1 / (si + 1)) [1])) [1]),
         Blk.vec (kktOracle2.ce [0]),
         Blk.vec (subv (kktOracle2.ci [0]) [1])]
      else if kktOracle2.M ≠ 0 then
        [Blk.vec (subv (kktOracle2.df [0]) (matVec (kktOracle2.dce [0]) [2, 3])),
         Blk.scalar 0,
         Blk.vec (kktOracle2.ce [0]),
         Blk.scalar 0]
      else if kktOracle2.N ≠ 0 then
        [Blk.vec (subv (kktOracle2.df [0]) (matVec (kktOracle2.dci [0]) [2, 3])),
         Blk.vec (List.zipWith (· * ·)
            (subv [2, 3] (List.map (fun si => 1 / (si + 1)) [1])) [1]),
         Blk.scalar 0,
         Blk.vec (subv (kktOracle2.ci [0]) [1])]
      else
        [Blk.vec (kktOracle2.df [0]), Blk.scalar 0, Blk.scalar 0, Blk.scalar 0] :=
  C2_kkt_blocks kktOracle2 1 1 [0] [1] [2, 3] rfl rfl rfl rfl rfl rfl rfl

set_option maxRecDepth 100000 in
/-- Counterexample for C2 as stated: for the inequality-only problem
kktOracle with eps = 2^-52, mu = 1, x = [0], s = [1], lda = [2], the
specification's formula kkt2 = (lda - mu / s) * s predicts the block list
[[0], [1], 0.0, [-1]], but IPM.KKT divides mu by s + eps and returns a
slack residual different from [1]. -/
theorem C2_counterexample :
    IPM.KKT kktOracle (1 / 2 ^ 52) 1 [0] [1] [2] ≠
      [Blk.vec [0], Blk.vec [1], Blk.scalar 0, Blk.vec [-1]] := by
  with_unfolding_all decide

end PyIPM
